import Mathlib

/-!
# Noggit `MapIndex::tile_iterator` (src/noggit/map_index.hpp)

A shallow embedding of the lazy filtered tile iterator of `MapIndex` and of the
ranges built on it (`tiles`, `loaded_tiles`, `tiles_in_range`).

* Pointers are options: `none` is `nullptr`.
* The `MapIndex` object the iterators point to is passed explicitly (`State.index`).
  A member call through a null `_index`, and a `getTile` outside the grid, are faults.
* `State.calls` is a ghost log of the calls the iterator makes on its `MapIndex`
  and on its predicate; it has no influence on any result.
* The `do ... while` loop of `operator++` runs on fuel; `operator_pp` supplies 4096,
  which is never used up (`operator_pp_loop_scan`).
-/

namespace Noggit

/-! ## Data model -/

/-- The coordinate type `tile_index` (noggit/tile_index.hpp): a pair of unsigned integers,
compared component-wise. The components are natural numbers: from a coordinate inside the
grid `operator++` never takes a component above 64, so no wrap-around arises. -/
structure tile_index where
  x : Nat
  z : Nat
deriving DecidableEq, Repr

/-- A materialised tile object (`MapTile`, noggit/MapTile.h). A `MapTile*` is an
`Option MapTile`; only the identity of the object matters here. -/
structure MapTile where
  id : Nat
deriving DecidableEq, Repr

/-- The class `MapTileEntry`: existence flags (a `uint32_t`), the owned tile
(`std::unique_ptr<MapTile>`, `none` when not materialised) and the on-disc flag. -/
structure MapTileEntry where
  flags : Nat
  tile : Option MapTile
  onDisc : Bool
deriving DecidableEq, Repr

/-- The part of class `MapIndex` the iterator works on: identity, the map level dirty flag,
the focus cursor and the slot table `mTiles[64][64]`, indexed `mTiles z x`. -/
structure MapIndex where
  basename : String
  _map_id : Int
  changed : Bool
  cx : Int
  cz : Int
  mTiles : Nat → Nat → MapTileEntry

/-- A `MapIndex*` that is not null: the address of the object. -/
abbrev MapIndexPtr := Nat

/-- Error of the tile collaborator when the on-disk record is absent or corrupt. -/
inductive FormatError where
  | corrupt
deriving DecidableEq, Repr

/-- Modelled from the spec: the collaborators of `MapIndex` that are not part of
map_index.hpp. `terrain` reads an existence bitmask and tells whether it marks the coordinate as
containing terrain (the spec does not number the bit); `load` is the tile collaborator's
`load(basename, map_id, coordinate)`, which "fails with a FormatError if the on-disk record is
absent/corrupt". -/
structure Env where
  terrain : Nat → Bool
  load : String → Int → tile_index → Except FormatError MapTile

/-- What can go wrong outside the language's defined behaviour, plus fuel exhaustion of the
loop model. -/
inductive Fault where
  | null_index
  | out_of_bounds
  | out_of_fuel
deriving DecidableEq, Repr

/-- A call made by the iterator on its `MapIndex` or on its predicate (ghost log entry). -/
inductive Call where
  | getTile (c : tile_index)
  | loadTile (c : tile_index)
  | pred (c : tile_index) (tile : Option MapTile)
deriving DecidableEq, Repr

/-- The `MapIndex` object behind every non-null `_index`, and the ghost call log
(oldest call first). -/
structure State where
  index : MapIndex
  calls : List Call

/-- The predicate type `std::function<bool (tile_index const&, MapTile*)>`. The first argument
is the `MapIndex` as it is when the call happens: a closure that captures `this`
(`tiles_in_range`) reads it, a capture-free lambda ignores it. -/
abbrev Pred := MapIndex → tile_index → Option MapTile → Bool

/-- The struct `tile_iterator<Load>`. -/
structure tile_iterator (Load : Bool) where
  _index : Option MapIndexPtr
  _tile : tile_index
  _pred : Pred

/-! ## `MapIndex` accessors -/

/-- The grid bounds `0 <= x, z < 64`. -/
def inRange (c : tile_index) : Prop := c.x < 64 ∧ c.z < 64

instance (c : tile_index) : Decidable (inRange c) := by
  unfold inRange; infer_instance

/-- Modelled from the spec: `MapIndex::getTile` (declared `const` in map_index.hpp, body in
map_index.cpp): "returns the materialized tile pointer or a null/absent result without side
effects (no load triggered)", asserting `0 <= x,z < 64`. -/
def getTile (m : MapIndex) (c : tile_index) : Except Fault (Option MapTile) :=
  if c.x < 64 ∧ c.z < 64 then .ok (m.mTiles c.z c.x).tile else .error .out_of_bounds

/-- Modelled from the spec: `MapIndex::hasTile` (declared `const`): "pure query, true iff
`existence_flags` marks the coordinate as containing terrain (independent of
materialization)". -/
def hasTile (env : Env) (m : MapIndex) (c : tile_index) : Bool :=
  env.terrain (m.mTiles c.z c.x).flags

/-- Modelled from the spec: `MapIndex::tileLoaded`: "true iff the slot's `tile` is currently
non-null". -/
def tileLoaded (m : MapIndex) (c : tile_index) : Bool :=
  (m.mTiles c.z c.x).tile.isSome

/-- Replace the slot at `c`, leaving every other slot as it is. -/
def setSlot (m : MapIndex) (c : tile_index) (e : MapTileEntry) : MapIndex :=
  { m with mTiles := fun z x => if z = c.z ∧ x = c.x then e else m.mTiles z x }

/-- Modelled from the spec: `MapIndex::loadTile` (body in map_index.cpp): "if already
materialized, return the existing tile; otherwise, if `hasTile(coord)` is false, return null
(no-op); otherwise invoke the Tile collaborator's binary deserialization using
`basename`/`map_id`/`coord`, taking ownership into the slot, setting `on_disc = true`". A
`FormatError` is "surfaced to the caller, tile left unmaterialized, slot `on_disc` left as
previously known"; a coordinate outside the grid is an address error. -/
def loadTile (env : Env) (m : MapIndex) (c : tile_index) :
    Except Fault (Except FormatError (Option MapTile) × MapIndex) :=
  if c.x < 64 ∧ c.z < 64 then
    match (m.mTiles c.z c.x).tile with
    | some t => .ok (.ok (some t), m)
    | none =>
      if hasTile env m c then
        match env.load m.basename m._map_id c with
        | .ok t => .ok (.ok (some t), setSlot m c { (m.mTiles c.z c.x) with tile := some t, onDisc := true })
        | .error e => .ok (.error e, m)
      else .ok (.ok none, m)
  else .error .out_of_bounds

/-! ## `tile_iterator` -/

/-- The default constructor `tile_iterator()`: null index, coordinate `(0, 0)`, a predicate
that rejects everything. -/
def tile_iterator.default_ctor (Load : Bool) : tile_iterator Load :=
  { _index := none, _tile := ⟨0, 0⟩, _pred := fun _ _ _ => false }

/-- The comparison `operator==`: `std::tie (_index, _tile) == std::tie (other._index, other._tile)`. -/
def operator_eq {Load : Bool} (a b : tile_iterator Load) : Bool :=
  decide (a._index = b._index) && decide (a._tile = b._tile)

/-- The comparison `operator!=`: `!operator== (other)`. -/
def operator_ne {Load : Bool} (a b : tile_iterator Load) : Bool :=
  !operator_eq a b

/-- The expression `_pred (_tile, _index->getTile (_tile))`, used by the constructor and as the
loop condition of `operator++`. -/
def eval_pred {Load : Bool} (s : State) (it : tile_iterator Load) : Except Fault (Bool × State) :=
  match it._index with
  | none => .error .null_index
  | some _ =>
    match getTile s.index it._tile with
    | .error f => .error f
    | .ok p =>
      .ok (it._pred s.index it._tile p,
           { s with calls := s.calls ++ [Call.getTile it._tile, Call.pred it._tile p] })

/-- The body of the `do ... while` loop of `operator++` on the coordinate: `++_tile.x`, wrap to
the next row at 64; `none` is the branch that resets the coordinate, nulls the index and
breaks. -/
def step_tile (t : tile_index) : Option tile_index :=
  let x := t.x + 1
  if x = 64 then
    let z := t.z + 1
    if z = 64 then none else some ⟨0, z⟩
  else some ⟨x, t.z⟩

/-- The loop of `operator++`, on fuel. -/
def operator_pp_loop {Load : Bool} :
    Nat → State → tile_iterator Load → Except Fault (tile_iterator Load × State)
  | 0, _, _ => .error .out_of_fuel
  | fuel + 1, s, it =>
    match step_tile it._tile with
    | none => .ok ({ it with _tile := ⟨0, 0⟩, _index := none }, s)
    | some t =>
      let it1 : tile_iterator Load := { it with _tile := t }
      match eval_pred s it1 with
      | .error f => .error f
      | .ok (true, s1) => .ok (it1, s1)
      | .ok (false, s1) => operator_pp_loop fuel s1 it1

/-- Prefix `operator++`. -/
def operator_pp {Load : Bool} (s : State) (it : tile_iterator Load) :
    Except Fault (tile_iterator Load × State) :=
  operator_pp_loop 4096 s it

/-- The constructor `tile_iterator (index, tile, pred)`: advance once unless the predicate
accepts the starting coordinate. -/
def tile_iterator.ctor (Load : Bool) (s : State) (index : Option MapIndexPtr)
    (tile : tile_index) (pred : Pred) : Except Fault (tile_iterator Load × State) :=
  let it : tile_iterator Load := { _index := index, _tile := tile, _pred := pred }
  match eval_pred s it with
  | .error f => .error f
  | .ok (true, s1) => .ok (it, s1)
  | .ok (false, s1) => operator_pp s1 it

/-- Postfix `operator++ (int) const`: `tile_iterator it (*this); ++it; return it;`. The result
is the pair of the object the operator was called on (the member is `const`: it is not
written) and the returned copy. -/
def operator_pp_int {Load : Bool} (s : State) (self : tile_iterator Load) :
    Except Fault ((tile_iterator Load × tile_iterator Load) × State) :=
  let it := self
  match operator_pp s it with
  | .error f => .error f
  | .ok (it1, s1) => .ok ((self, it1), s1)

/-- The dereference `operator*`: `Load ? _index->loadTile (_tile) : _index->getTile (_tile)`. -/
def operator_deref {Load : Bool} (env : Env) (s : State) (it : tile_iterator Load) :
    Except Fault (Except FormatError (Option MapTile) × State) :=
  match it._index with
  | none => .error .null_index
  | some _ =>
    if Load then
      match loadTile env s.index it._tile with
      | .error f => .error f
      | .ok (r, m) => .ok (r, { index := m, calls := s.calls ++ [Call.loadTile it._tile] })
    else
      match getTile s.index it._tile with
      | .error f => .error f
      | .ok p => .ok (.ok p, { s with calls := s.calls ++ [Call.getTile it._tile] })

/-! ## Ranges -/

/-- The default argument of `tiles`: the predicate that accepts everything. -/
def tiles_default_pred : Pred := fun _ _ _ => true

/-- The range `tiles<Load> (pred)` of the `MapIndex` at address `this`: the pair
(`tile_iterator<Load> {this, {0, 0}, pred}`, `tile_iterator<Load>{}`). -/
def tiles (Load : Bool) (s : State) (this : MapIndexPtr) (pred : Pred) :
    Except Fault ((tile_iterator Load × tile_iterator Load) × State) :=
  match tile_iterator.ctor Load s (some this) ⟨0, 0⟩ pred with
  | .error f => .error f
  | .ok (b, s1) => .ok ((b, tile_iterator.default_ctor Load), s1)

/-- The predicate of `loaded_tiles`: `!!tile`. -/
def loaded_pred : Pred := fun _ _ tile => tile.isSome

/-- The range `loaded_tiles()`: `tiles<false>` with the predicate `!!tile`. -/
def loaded_tiles (s : State) (this : MapIndexPtr) :
    Except Fault ((tile_iterator false × tile_iterator false) × State) :=
  tiles false s this loaded_pred

/-- The value type `math::vector_3d` over a number type `F`. -/
structure vector_3d (F : Type) where
  x : F
  y : F
  z : F

/-- Modelled from the spec: the `float` arithmetic `tiles_in_range` uses, none of it part of
map_index.hpp, taken as opaque operations: the constant `TILESIZE`, the conversion of a
coordinate component to `float`, the product, the comparison `<=` and `misc::getShortestDist`
(the "distance from a reference point to the tile's footprint"). -/
structure FloatEnv (F : Type) where
  TILESIZE : F
  ofNat : Nat → F
  mul : F → F → F
  le : F → F → Bool
  getShortestDist : F → F → F → F → F → F

/-- The predicate of `tiles_in_range`, a closure over `this`, `pos` and `radius`:
`hasTile(index) && misc::getShortestDist (pos.x, pos.z, index.x * TILESIZE, index.z * TILESIZE,
TILESIZE) <= radius`. -/
def in_range_pred {F : Type} (env : Env) (fe : FloatEnv F) (pos : vector_3d F) (radius : F) :
    Pred :=
  fun m index _ =>
    hasTile env m index &&
      fe.le (fe.getShortestDist pos.x pos.z (fe.mul (fe.ofNat index.x) fe.TILESIZE)
        (fe.mul (fe.ofNat index.z) fe.TILESIZE) fe.TILESIZE) radius

/-- The range `tiles_in_range (pos, radius)`: `tiles<true>` with the radius predicate. -/
def tiles_in_range {F : Type} (env : Env) (fe : FloatEnv F) (s : State) (this : MapIndexPtr)
    (pos : vector_3d F) (radius : F) :
    Except Fault ((tile_iterator true × tile_iterator true) × State) :=
  tiles true s this (in_range_pred env fe pos radius)

/-- One visit of a traversal: the coordinate the iterator stood on and what dereferencing it
returned. -/
structure Visit where
  coord : tile_index
  value : Except FormatError (Option MapTile)

/-- The traversal a range-based `for` makes of a range: while `it != last`, dereference `it`
and advance it. Returns the visits in order and the state at the end. -/
def traverse {Load : Bool} (env : Env) :
    Nat → State → tile_iterator Load → tile_iterator Load → Except Fault (List Visit × State)
  | 0, _, _, _ => .error .out_of_fuel
  | fuel + 1, s, it, last =>
    if operator_ne it last then
      match operator_deref env s it with
      | .error f => .error f
      | .ok (v, s1) =>
        match operator_pp s1 it with
        | .error f => .error f
        | .ok (it1, s2) =>
          match traverse env fuel s2 it1 last with
          | .error f => .error f
          | .ok (vs, s3) => .ok (⟨it._tile, v⟩ :: vs, s3)
    else .ok ([], s)

/-- A complete traversal of a range (begin, end); the grid has 4096 slots, so at most 4096
visits and one last comparison happen. -/
def for_each {Load : Bool} (env : Env) (s : State)
    (range : tile_iterator Load × tile_iterator Load) : Except Fault (List Visit × State) :=
  traverse env 4097 s range.1 range.2

/-! ## Specification vocabulary -/

/-- The raster rank `z * 64 + x` of a coordinate. -/
def rank (c : tile_index) : Nat := c.z * 64 + c.x

/-- The coordinate of raster rank `r`. -/
def ofRank (r : Nat) : tile_index := ⟨r % 64, r / 64⟩

/-- The 4096 coordinates in raster order: `(0,0), (1,0), ..., (63,0), (0,1), ..., (63,63)`. -/
def raster : List tile_index :=
  (List.range 64).flatMap fun z => (List.range 64).map fun x => ⟨x, z⟩

/-- The answer of the predicate at coordinate `c` when the `MapIndex` is `m`: it is called with
`c` and the tile pointer the slot holds. -/
def accepts (pred : Pred) (m : MapIndex) (c : tile_index) : Bool :=
  pred m c (m.mTiles c.z c.x).tile

/-- The first rank in `[r, r + n)` whose coordinate `acc` accepts. -/
def firstFrom (acc : tile_index → Bool) : Nat → Nat → Option Nat
  | 0, _ => none
  | n + 1, r => if acc (ofRank r) then some r else firstFrom acc n (r + 1)

/-- The calls a scan of the ranks `[r, r + n)` makes until `acc` accepts: a `getTile` and a
predicate call per coordinate. -/
def scanCalls (m : MapIndex) (acc : tile_index → Bool) : Nat → Nat → List Call
  | 0, _ => []
  | n + 1, r =>
    Call.getTile (ofRank r) :: Call.pred (ofRank r) (m.mTiles (ofRank r).z (ofRank r).x).tile ::
      (if acc (ofRank r) then [] else scanCalls m acc n (r + 1))

/-- Where a scan leaves the iterator: on the coordinate found, or in the end state. -/
def arrive {Load : Bool} (it : tile_iterator Load) : Option Nat → tile_iterator Load
  | none => { it with _tile := ⟨0, 0⟩, _index := none }
  | some k => { it with _tile := ofRank k }

/-- The `MapIndex` after `operator*` of a `tile_iterator<Load>` on the coordinate `c`. -/
def derefIndex (Load : Bool) (env : Env) (m : MapIndex) (c : tile_index) : MapIndex :=
  if Load then
    match loadTile env m c with
    | .ok (_, m1) => m1
    | .error _ => m
  else m

/-- The value `operator*` of a `tile_iterator<Load>` on the in-range coordinate `c` returns. -/
def derefValue (Load : Bool) (env : Env) (m : MapIndex) (c : tile_index) :
    Except FormatError (Option MapTile) :=
  if Load then
    match loadTile env m c with
    | .ok (v, _) => v
    | .error _ => .ok none
  else .ok (m.mTiles c.z c.x).tile

/-- The visits made by dereferencing on each coordinate of a list in turn. -/
def visitAll (Load : Bool) (env : Env) : MapIndex → List tile_index → List Visit
  | _, [] => []
  | m, c :: cs => ⟨c, derefValue Load env m c⟩ :: visitAll Load env (derefIndex Load env m c) cs

/-- The `MapIndex` after dereferencing on each coordinate of a list in turn. -/
def indexAfter (Load : Bool) (env : Env) (m : MapIndex) (cs : List tile_index) : MapIndex :=
  cs.foldl (derefIndex Load env) m

/-- The coordinates of the ranks `[r, r + n)` that `acc` accepts, in order. -/
def acceptedFrom (acc : tile_index → Bool) (n r : Nat) : List tile_index :=
  ((List.range' r n).map ofRank).filter acc

/-- The slot of coordinate `c` after a `loadTile` there, as a function of the slot before:
unchanged when it holds a tile, when its flags mark no terrain or when the collaborator's load
fails; otherwise it holds the loaded tile and is on disc. -/
def loadedEntry (env : Env) (basename : String) (map_id : Int) (c : tile_index)
    (e : MapTileEntry) : MapTileEntry :=
  match e.tile with
  | some _ => e
  | none =>
    if env.terrain e.flags then
      match env.load basename map_id c with
      | .ok t => { e with tile := some t, onDisc := true }
      | .error _ => e
    else e

/-- At most `n` times `if (it != end) ++it;`: the advances a client makes while the iterator
is not at end, `end` being the default-constructed iterator. -/
def advance_while {Load : Bool} :
    Nat → State → tile_iterator Load → Except Fault (tile_iterator Load × State)
  | 0, s, it => .ok (it, s)
  | n + 1, s, it =>
    if operator_ne it (tile_iterator.default_ctor Load) then
      match operator_pp s it with
      | .error f => .error f
      | .ok (it1, s1) => advance_while n s1 it1
    else .ok (it, s)

/-- The coordinates of the predicate calls of a call log, in the order of the calls. -/
def predCoords : List Call → List tile_index
  | [] => []
  | Call.pred c _ :: cs => c :: predCoords cs
  | Call.getTile _ :: cs => predCoords cs
  | Call.loadTile _ :: cs => predCoords cs

/-- The predicate evaluations made by the advances of a traversal (the loop of `traverse`):
for each `operator++` the traversal makes, the `MapIndex` that advance runs on and the
coordinates of the predicate calls it adds to the call log. The constructor of the begin
iterator asks the predicate before any dereference, on the `MapIndex` as it is at the start. -/
def traverse_evals {Load : Bool} (env : Env) :
    Nat → State → tile_iterator Load → tile_iterator Load → List (MapIndex × List tile_index)
  | 0, _, _, _ => []
  | fuel + 1, s, it, last =>
    if operator_ne it last then
      match operator_deref env s it with
      | .error _ => []
      | .ok (_, s1) =>
        match operator_pp s1 it with
        | .error _ => []
        | .ok (it1, s2) =>
          (s1.index, predCoords (s2.calls.drop s1.calls.length)) ::
            traverse_evals env fuel s2 it1 last
    else []

/-- The predicate evaluations made by the advances of a complete traversal of a range. -/
def for_each_evals {Load : Bool} (env : Env) (s : State)
    (range : tile_iterator Load × tile_iterator Load) : List (MapIndex × List tile_index) :=
  traverse_evals env 4097 s range.1 range.2

/-! ## Concrete inputs -/

/-- A map whose every coordinate has terrain (flag bit 0 set), with only `(1,1)` and
`(63,63)` materialised. -/
def demoIndex : MapIndex :=
  { basename := "Azeroth", _map_id := 0, changed := false, cx := 0, cz := 0,
    mTiles := fun z x =>
      if z = 1 ∧ x = 1 then ⟨1, some ⟨65⟩, true⟩
      else if z = 63 ∧ x = 63 then ⟨1, some ⟨4095⟩, true⟩
      else ⟨1, none, false⟩ }

/-- Collaborators that read flag bit 0 as "has terrain" and load every tile. -/
def demoEnv : Env :=
  { terrain := fun f => f % 2 == 1, load := fun _ _ c => .ok ⟨c.z * 64 + c.x⟩ }

/-- Collaborators that read flag bit 0 as "has terrain" and find every tile file corrupt. -/
def corruptEnv : Env :=
  { terrain := fun f => f % 2 == 1, load := fun _ _ _ => .error .corrupt }

/-- The state with `demoIndex` and an empty call log. -/
def demoState : State := ⟨demoIndex, []⟩

/-- A peek iterator of the index at address 0, on `(3, 5)`, with the default predicate. -/
def demoIt : tile_iterator false := ⟨some 0, ⟨3, 5⟩, tiles_default_pred⟩

/-- A number model for the examples: integers, with the distance from the point `(x, z)` to the
square of side `size` whose corner is `(sx, sz)`, summed over the two axes. -/
def demoFloat : FloatEnv Int :=
  { TILESIZE := 533
    ofNat := fun n => (n : Int)
    mul := fun a b => a * b
    le := fun a b => decide (a ≤ b)
    getShortestDist := fun x z sx sz size =>
      max (max (sx - x) (x - (sx + size))) 0 + max (max (sz - z) (z - (sz + size))) 0 }

/-! ## Lemmas on the loop of `operator++` -/

theorem ofRank_rank (c : tile_index) (h : inRange c) : ofRank (rank c) = c := by
  obtain ⟨x, z⟩ := c
  obtain ⟨hx, hz⟩ := h
  simp only [ofRank, rank, tile_index.mk.injEq] at *
  constructor <;> omega

theorem rank_ofRank (r : Nat) : rank (ofRank r) = r := by
  simp only [ofRank, rank]; omega

theorem inRange_ofRank (r : Nat) (h : r < 4096) : inRange (ofRank r) := by
  simp only [ofRank, inRange]; omega

theorem rank_lt (c : tile_index) (h : inRange c) : rank c < 4096 := by
  obtain ⟨hx, hz⟩ := h
  simp only [rank]; omega

theorem step_tile_ofRank (r : Nat) (h : r < 4095) : step_tile (ofRank r) = some (ofRank (r + 1)) := by
  simp only [step_tile, ofRank]
  by_cases hx : r % 64 + 1 = 64
  · have hz : ¬ (r / 64 + 1 = 64) := by omega
    simp only [hx, hz, if_true, if_false, Option.some.injEq, tile_index.mk.injEq]
    constructor <;> omega
  · simp only [hx, if_false, Option.some.injEq, tile_index.mk.injEq]
    constructor <;> omega

theorem step_tile_last : step_tile (ofRank 4095) = none := by
  decide

theorem eval_pred_ok {Load : Bool} (s : State) (it : tile_iterator Load) (p : MapIndexPtr)
    (hidx : it._index = some p) (hr : inRange it._tile) :
    eval_pred s it = .ok (accepts it._pred s.index it._tile,
      { s with calls := s.calls ++
          [Call.getTile it._tile, Call.pred it._tile (s.index.mTiles it._tile.z it._tile.x).tile] }) := by
  have hr2 : it._tile.x < 64 ∧ it._tile.z < 64 := hr
  simp [eval_pred, hidx, getTile, hr2, accepts]

theorem operator_pp_loop_scan {Load : Bool} (n : Nat) :
    ∀ (fuel r : Nat) (s : State) (it : tile_iterator Load) (p : MapIndexPtr),
      it._index = some p → it._tile = ofRank r → r + n = 4095 → n < fuel →
      operator_pp_loop fuel s it =
        .ok (arrive it (firstFrom (accepts it._pred s.index) n (r + 1)),
             { s with calls := s.calls ++ scanCalls s.index (accepts it._pred s.index) n (r + 1) }) := by
  induction n with
  | zero =>
    intro fuel r s it p hidx ht hr hf
    obtain ⟨f, rfl⟩ : ∃ f, fuel = f + 1 := ⟨fuel - 1, by omega⟩
    have hr2 : r = 4095 := by omega
    subst hr2
    simp [operator_pp_loop, ht, step_tile_last, firstFrom, scanCalls, arrive]
  | succ n ih =>
    intro fuel r s it p hidx ht hr hf
    obtain ⟨f, rfl⟩ : ∃ f, fuel = f + 1 := ⟨fuel - 1, by omega⟩
    have hstep := step_tile_ofRank r (by omega)
    have hin : inRange (ofRank (r + 1)) := inRange_ofRank _ (by omega)
    have hev := eval_pred_ok s ({ it with _tile := ofRank (r + 1) } : tile_iterator Load) p hidx hin
    simp only [operator_pp_loop, ht, hstep]
    rw [hev]
    cases hacc : accepts it._pred s.index (ofRank (r + 1)) with
    | true =>
      simp [firstFrom, scanCalls, arrive, hacc]
    | false =>
      have := ih f (r + 1)
        { s with calls := s.calls ++
          [Call.getTile (ofRank (r + 1)),
           Call.pred (ofRank (r + 1)) (s.index.mTiles (ofRank (r + 1)).z (ofRank (r + 1)).x).tile] }
        ({ it with _tile := ofRank (r + 1) } : tile_iterator Load) p hidx rfl (by omega) (by omega)
      simp only [] at this
      simp only [this]
      simp [firstFrom, scanCalls, arrive, hacc]

theorem firstFrom_cases (acc : tile_index → Bool) (n : Nat) :
    ∀ r, (firstFrom acc n r = none ∧ ∀ k, r ≤ k → k < r + n → acc (ofRank k) = false) ∨
      (∃ k, firstFrom acc n r = some k ∧ r ≤ k ∧ k < r + n ∧ acc (ofRank k) = true ∧
        ∀ j, r ≤ j → j < k → acc (ofRank j) = false) := by
  induction n with
  | zero =>
    intro r
    left
    exact ⟨rfl, fun k h1 h2 => by omega⟩
  | succ n ih =>
    intro r
    cases hacc : acc (ofRank r) with
    | true =>
      right
      exact ⟨r, by simp [firstFrom, hacc], le_refl r, by omega, hacc, fun j h1 h2 => by omega⟩
    | false =>
      rcases ih (r + 1) with ⟨hn, hall⟩ | ⟨k, hk, h1, h2, h3, h4⟩
      · left
        refine ⟨by simp [firstFrom, hacc, hn], fun k h1 h2 => ?_⟩
        by_cases hkr : k = r
        · subst hkr; exact hacc
        · exact hall k (by omega) (by omega)
      · right
        refine ⟨k, by simp [firstFrom, hacc, hk], by omega, by omega, h3, fun j h5 h6 => ?_⟩
        by_cases hjr : j = r
        · subst hjr; exact hacc
        · exact h4 j (by omega) h6

theorem operator_pp_scan {Load : Bool} (s : State) (it : tile_iterator Load) (p : MapIndexPtr)
    (hidx : it._index = some p) (hr : inRange it._tile) :
    operator_pp s it =
      .ok (arrive it (firstFrom (accepts it._pred s.index) (4095 - rank it._tile) (rank it._tile + 1)),
           { s with calls := s.calls ++
               scanCalls s.index (accepts it._pred s.index) (4095 - rank it._tile) (rank it._tile + 1) }) := by
  have hlt := rank_lt _ hr
  exact operator_pp_loop_scan (4095 - rank it._tile) 4096 (rank it._tile) s it p hidx
    (ofRank_rank _ hr).symm (by omega) (by omega)

theorem ctor_scan (Load : Bool) (s : State) (p : MapIndexPtr) (c : tile_index) (pred : Pred)
    (hr : inRange c) :
    tile_iterator.ctor Load s (some p) c pred =
      .ok (arrive ⟨some p, c, pred⟩ (firstFrom (accepts pred s.index) (4096 - rank c) (rank c)),
           { s with calls := s.calls ++ scanCalls s.index (accepts pred s.index) (4096 - rank c) (rank c) }) := by
  have hlt := rank_lt _ hr
  obtain ⟨n, hn⟩ : ∃ n, 4096 - rank c = n + 1 := ⟨4095 - rank c, by omega⟩
  have hn2 : 4095 - rank c = n := by omega
  have hev := eval_pred_ok s (⟨some p, c, pred⟩ : tile_iterator Load) p rfl hr
  simp only [tile_iterator.ctor]
  rw [hev, hn]
  cases hacc : accepts pred s.index c with
  | true =>
    simp [firstFrom, scanCalls, arrive, hacc, ofRank_rank c hr]
  | false =>
    have := operator_pp_scan
      { s with calls := s.calls ++ [Call.getTile c, Call.pred c (s.index.mTiles c.z c.x).tile] }
      (⟨some p, c, pred⟩ : tile_iterator Load) p rfl hr
    simp only [hn2] at this
    simp only [this]
    simp [firstFrom, scanCalls, arrive, hacc, ofRank_rank c hr]

/-! ## Lemmas on traversals -/

theorem loadTile_ok (env : Env) (m : MapIndex) (c : tile_index) (hr : inRange c) :
    loadTile env m c = .ok (derefValue true env m c, derefIndex true env m c) := by
  have hr2 : c.x < 64 ∧ c.z < 64 := hr
  simp only [derefValue, derefIndex, loadTile, hr2, and_self, if_true]
  cases (m.mTiles c.z c.x).tile with
  | some t => rfl
  | none =>
    cases hasTile env m c with
    | false => rfl
    | true =>
      cases env.load m.basename m._map_id c with
      | ok t => rfl
      | error e => rfl

theorem operator_deref_ok {Load : Bool} (env : Env) (s : State) (it : tile_iterator Load)
    (p : MapIndexPtr) (hidx : it._index = some p) (hr : inRange it._tile) :
    ∃ cs, operator_deref env s it =
      .ok (derefValue Load env s.index it._tile, ⟨derefIndex Load env s.index it._tile, cs⟩) := by
  have hr2 : it._tile.x < 64 ∧ it._tile.z < 64 := hr
  cases Load with
  | true =>
    refine ⟨s.calls ++ [Call.loadTile it._tile], ?_⟩
    simp only [operator_deref, hidx, if_true, loadTile_ok env s.index it._tile hr]
  | false =>
    refine ⟨s.calls ++ [Call.getTile it._tile], ?_⟩
    simp [operator_deref, hidx, getTile, hr2, derefValue, derefIndex]

theorem firstFrom_congr (a b : tile_index → Bool) (n : Nat) :
    ∀ r, (∀ k, r ≤ k → k < r + n → a (ofRank k) = b (ofRank k)) →
      firstFrom a n r = firstFrom b n r := by
  induction n with
  | zero => intro r _; rfl
  | succ n ih =>
    intro r h
    simp only [firstFrom, h r (le_refl r) (by omega)]
    rw [ih (r + 1) (fun k h1 h2 => h k (by omega) (by omega))]

theorem acceptedFrom_firstFrom (acc : tile_index → Bool) (n : Nat) :
    ∀ r, acceptedFrom acc n r =
      match firstFrom acc n r with
      | none => []
      | some k => ofRank k :: acceptedFrom acc (r + n - (k + 1)) (k + 1) := by
  induction n with
  | zero => intro r; rfl
  | succ n ih =>
    intro r
    cases hacc : acc (ofRank r) with
    | true =>
      have : r + (n + 1) - (r + 1) = n := by omega
      simp [acceptedFrom, firstFrom, hacc, List.range', this]
    | false =>
      have h1 := ih (r + 1)
      have h2 : r + 1 + n = r + (n + 1) := by omega
      simp only [acceptedFrom, h2] at h1
      simp only [acceptedFrom, firstFrom, hacc, List.range', List.map_cons, Bool.false_eq_true,
        if_false]
      rw [List.filter_cons_of_neg (by simp [hacc])]
      exact h1

theorem traverse_arrive {Load : Bool} (env : Env) (pred : Pred) (p : MapIndexPtr)
    (c0 : tile_index) (R : MapIndex → Prop) (acc : tile_index → Bool)
    (hR : ∀ m c, R m → inRange c → R (derefIndex Load env m c))
    (hacc : ∀ m c, R m → inRange c → accepts pred m c = acc c) (n : Nat) :
    ∀ (fuel r : Nat) (s : State), r + n = 4096 → n < fuel → R s.index →
      ∃ cs, traverse env fuel s (arrive (⟨some p, c0, pred⟩ : tile_iterator Load) (firstFrom acc n r))
          (tile_iterator.default_ctor Load) =
        .ok (visitAll Load env s.index (acceptedFrom acc n r),
             ⟨indexAfter Load env s.index (acceptedFrom acc n r), cs⟩) := by
  induction n using Nat.strong_induction_on with
  | _ n ih =>
    intro fuel r s hrn hf hRs
    obtain ⟨f, rfl⟩ : ∃ f, fuel = f + 1 := ⟨fuel - 1, by omega⟩
    rw [acceptedFrom_firstFrom acc n r]
    rcases firstFrom_cases acc n r with ⟨hn, _⟩ | ⟨k, hk, h1, h2, h3, _⟩
    · rw [hn]
      exact ⟨s.calls, by simp [traverse, arrive, operator_ne, operator_eq,
        tile_iterator.default_ctor, visitAll, indexAfter]⟩
    · rw [hk]
      have hk4 : k < 4096 := by omega
      have hin : inRange (ofRank k) := inRange_ofRank k hk4
      obtain ⟨cs1, hd⟩ := operator_deref_ok env s
        (arrive (⟨some p, c0, pred⟩ : tile_iterator Load) (some k)) p rfl hin
      have hR1 : R (derefIndex Load env s.index (ofRank k)) := hR _ _ hRs hin
      have hpp := operator_pp_scan ⟨derefIndex Load env s.index (ofRank k), cs1⟩
        (arrive (⟨some p, c0, pred⟩ : tile_iterator Load) (some k)) p rfl hin
      have hfe : firstFrom (accepts pred (derefIndex Load env s.index (ofRank k))) (4095 - k) (k + 1)
          = firstFrom acc (4095 - k) (k + 1) :=
        firstFrom_congr _ _ _ _ (fun j _ hj => hacc _ _ hR1 (inRange_ofRank j (by omega)))
      simp only [arrive, rank_ofRank, hfe] at hpp hd
      obtain ⟨cs2, hrec⟩ := ih (4095 - k) (by omega) f (k + 1)
        ⟨derefIndex Load env s.index (ofRank k),
         cs1 ++ scanCalls (derefIndex Load env s.index (ofRank k))
           (accepts pred (derefIndex Load env s.index (ofRank k))) (4095 - k) (k + 1)⟩
        (by omega) (by omega) hR1
      have hnk : r + n - (k + 1) = 4095 - k := by omega
      refine ⟨cs2, ?_⟩
      have hne : operator_ne (⟨some p, ofRank k, pred⟩ : tile_iterator Load)
          (tile_iterator.default_ctor Load) = true := by
        simp [operator_ne, operator_eq, tile_iterator.default_ctor]
      simp only [traverse, arrive, hne, if_true, hd, hpp]
      simp only [arrive] at hrec
      cases hff : firstFrom acc (4095 - k) (k + 1) with
      | none =>
        rw [hff] at hrec
        simp only [hrec, hnk, visitAll, indexAfter, List.foldl_cons]
      | some j =>
        rw [hff] at hrec
        simp only [hrec, hnk, visitAll, indexAfter, List.foldl_cons]

theorem raster_rows (a : Nat) :
    ((List.range a).flatMap fun z => (List.range 64).map fun x => (⟨x, z⟩ : tile_index)) =
      (List.range' 0 (a * 64)).map ofRank := by
  induction a with
  | zero => simp
  | succ a ih =>
    have hsplit : List.range' 0 ((a + 1) * 64) = List.range' 0 (a * 64) ++ List.range' (a * 64) 64 := by
      have := List.range'_append_1 0 (a * 64) 64
      simp only [Nat.zero_add] at this
      rw [this]
      congr 1
      omega
    have hrow : ((List.range 64).map fun x => (⟨x, a⟩ : tile_index)) =
        (List.range' (a * 64) 64).map ofRank := by
      rw [List.range'_eq_map_range, List.map_map]
      apply List.map_congr_left
      intro x hx
      have hx2 : x < 64 := List.mem_range.mp hx
      simp only [Function.comp, ofRank, tile_index.mk.injEq]
      constructor <;> omega
    rw [List.range_succ, List.flatMap_append, ih, List.flatMap_singleton, hsplit, List.map_append,
      hrow]

theorem raster_eq_map : raster = (List.range' 0 4096).map ofRank :=
  raster_rows 64

theorem raster_filter (acc : tile_index → Bool) : raster.filter acc = acceptedFrom acc 4096 0 := by
  rw [raster_eq_map]; rfl

theorem mem_raster (c : tile_index) : c ∈ raster ↔ inRange c := by
  rw [raster_eq_map]
  simp only [List.mem_map, List.mem_range'_1]
  constructor
  · rintro ⟨k, ⟨_, hk⟩, rfl⟩
    exact inRange_ofRank k (by omega)
  · intro h
    exact ⟨rank c, ⟨Nat.zero_le _, by have := rank_lt c h; omega⟩, ofRank_rank c h⟩

theorem raster_pairwise : raster.Pairwise (fun a b => rank a < rank b) := by
  rw [raster_eq_map, List.pairwise_map]
  simp only [rank_ofRank]
  exact List.pairwise_lt_range' 0 4096

theorem raster_length : raster.length = 4096 := by
  rw [raster_eq_map]; simp

theorem visitAll_coord (Load : Bool) (env : Env) (cs : List tile_index) :
    ∀ m, (visitAll Load env m cs).map Visit.coord = cs := by
  induction cs with
  | nil => intro m; rfl
  | cons c cs ih => intro m; simp [visitAll, ih]

theorem tiles_for_each {Load : Bool} (env : Env) (pred : Pred) (this : MapIndexPtr)
    (R : MapIndex → Prop) (acc : tile_index → Bool)
    (hR : ∀ m c, R m → inRange c → R (derefIndex Load env m c))
    (hacc : ∀ m c, R m → inRange c → accepts pred m c = acc c) (s : State) (hRs : R s.index) :
    ∃ cs1 cs2,
      tiles Load s this pred =
        .ok ((arrive (⟨some this, ⟨0, 0⟩, pred⟩ : tile_iterator Load) (firstFrom acc 4096 0),
              tile_iterator.default_ctor Load), ⟨s.index, cs1⟩) ∧
      for_each env ⟨s.index, cs1⟩
          (arrive (⟨some this, ⟨0, 0⟩, pred⟩ : tile_iterator Load) (firstFrom acc 4096 0),
            tile_iterator.default_ctor Load) =
        .ok (visitAll Load env s.index (raster.filter acc),
             ⟨indexAfter Load env s.index (raster.filter acc), cs2⟩) := by
  have hc := ctor_scan Load s this ⟨0, 0⟩ pred (by decide)
  have hfe : firstFrom (accepts pred s.index) 4096 0 = firstFrom acc 4096 0 :=
    firstFrom_congr _ _ _ _ (fun j _ hj => hacc _ _ hRs (inRange_ofRank j (by omega)))
  have h0 : 4096 - rank ⟨0, 0⟩ = 4096 := by decide
  have h1 : rank ⟨0, 0⟩ = 0 := by decide
  rw [h0, h1, hfe] at hc
  obtain ⟨cs2, ht⟩ := traverse_arrive env pred this ⟨0, 0⟩ R acc hR hacc 4096 4097 0
    ⟨s.index, s.calls ++ scanCalls s.index (accepts pred s.index) 4096 0⟩ (by omega) (by omega) hRs
  refine ⟨s.calls ++ scanCalls s.index (accepts pred s.index) 4096 0, cs2, ?_, ?_⟩
  · simp only [tiles, hc]
  · rw [raster_filter]
    exact ht

theorem accepted_mem (acc : tile_index → Bool) (c : tile_index) :
    c ∈ raster.filter acc ↔ inRange c ∧ acc c = true := by
  rw [List.mem_filter, mem_raster]

theorem accepted_pairwise (acc : tile_index → Bool) :
    (raster.filter acc).Pairwise (fun a b => rank a < rank b) :=
  raster_pairwise.filter _

theorem accepted_nodup (acc : tile_index → Bool) : (raster.filter acc).Nodup :=
  (accepted_pairwise acc).imp (fun h heq => by rw [heq] at h; exact absurd h (lt_irrefl _))

theorem ofRank_inj (j k : Nat) (h : ofRank j = ofRank k) : j = k := by
  rw [← rank_ofRank j, ← rank_ofRank k, h]

theorem acceptedFrom_two (acc : tile_index → Bool) (a b : Nat) (hab : a < b) (hb : b < 4096)
    (h : ∀ k, k < 4096 → (acc (ofRank k) = true ↔ k = a ∨ k = b)) :
    acceptedFrom acc 4096 0 = [ofRank a, ofRank b] := by
  have hfalse : ∀ k, k < 4096 → acc (ofRank k) = false → k ≠ a ∧ k ≠ b := by
    intro k hk hf
    constructor <;> intro he <;>
    · have := (h k hk).mpr (by simp [he])
      rw [hf] at this
      exact absurd this (by simp)
  rw [acceptedFrom_firstFrom]
  rcases firstFrom_cases acc 4096 0 with ⟨_, hall⟩ | ⟨k, hk, h1, h2, h3, h4⟩
  · exact absurd rfl (hfalse a (by omega) (hall a (by omega) (by omega))).1
  · have hka : k = a := by
      rcases (h k (by omega)).mp h3 with h5 | h5
      · exact h5
      · by_contra _
        exact absurd rfl (hfalse a (by omega) (h4 a (by omega) (by omega))).1
    subst hka
    rw [hk]
    simp only [List.cons.injEq, true_and]
    rw [acceptedFrom_firstFrom]
    rcases firstFrom_cases acc (0 + 4096 - (k + 1)) (k + 1) with ⟨_, hall⟩ | ⟨j, hj, h5, h6, h7, h8⟩
    · exact absurd rfl (hfalse b hb (hall b (by omega) (by omega))).2
    · have hjb : j = b := by
        rcases (h j (by omega)).mp h7 with h9 | h9
        · omega
        · exact h9
      subst hjb
      rw [hj]
      simp only [List.cons.injEq, true_and]
      rw [acceptedFrom_firstFrom]
      rcases firstFrom_cases acc (k + 1 + (0 + 4096 - (k + 1)) - (j + 1)) (j + 1) with
        ⟨hn, _⟩ | ⟨i, _, h9, h10, h11, _⟩
      · rw [hn]
      · rcases (h i (by omega)).mp h11 with h12 | h12 <;> omega

theorem visitAll_peek (env : Env) (m : MapIndex) (cs : List tile_index) :
    indexAfter false env m cs = m ∧
      ∀ v ∈ visitAll false env m cs, v.value = .ok (m.mTiles v.coord.z v.coord.x).tile := by
  induction cs with
  | nil => exact ⟨rfl, fun v hv => by simp [visitAll] at hv⟩
  | cons c cs ih =>
    have hd : derefIndex false env m c = m := by simp [derefIndex]
    refine ⟨by simpa [indexAfter, hd] using ih.1, fun v hv => ?_⟩
    simp only [visitAll, hd, List.mem_cons] at hv
    rcases hv with rfl | hv
    · simp [derefValue]
    · exact ih.2 v hv

theorem setSlot_self (m : MapIndex) (c : tile_index) : setSlot m c (m.mTiles c.z c.x) = m := by
  obtain ⟨b, i, ch, cx, cz, t⟩ := m
  simp only [setSlot, MapIndex.mk.injEq, true_and]
  funext z x
  by_cases h : z = c.z ∧ x = c.x
  · obtain ⟨rfl, rfl⟩ := h
    simp
  · simp [h]

theorem derefIndex_force (env : Env) (m : MapIndex) (c : tile_index) (hr : inRange c) :
    derefIndex true env m c =
      setSlot m c (loadedEntry env m.basename m._map_id c (m.mTiles c.z c.x)) := by
  have hr2 : c.x < 64 ∧ c.z < 64 := hr
  simp only [derefIndex, loadTile, hr2, and_self, if_true, loadedEntry, hasTile]
  cases ht : (m.mTiles c.z c.x).tile with
  | some t => simp only [← ht, setSlot_self]
  | none =>
    cases hh : env.terrain (m.mTiles c.z c.x).flags with
    | false => simp only [Bool.false_eq_true, if_false, setSlot_self]
    | true =>
      cases hl : env.load m.basename m._map_id c with
      | ok t => simp only [if_true]
      | error e => simp only [if_true, setSlot_self]

theorem derefValue_force (env : Env) (m : MapIndex) (c : tile_index) (hr : inRange c) :
    derefValue true env m c =
      match (m.mTiles c.z c.x).tile with
      | some t => .ok (some t)
      | none =>
        if hasTile env m c then
          match env.load m.basename m._map_id c with
          | .ok t => .ok (some t)
          | .error e => .error e
        else .ok none := by
  have hr2 : c.x < 64 ∧ c.z < 64 := hr
  simp only [derefValue, loadTile, hr2, and_self, if_true]
  cases (m.mTiles c.z c.x).tile with
  | some t => rfl
  | none =>
    cases hasTile env m c with
    | false => rfl
    | true =>
      cases env.load m.basename m._map_id c with
      | ok t => rfl
      | error e => rfl

theorem mem_scanCalls (m : MapIndex) (acc : tile_index → Bool) (n : Nat) :
    ∀ r call, call ∈ scanCalls m acc n r →
      ∃ k, r ≤ k ∧ k < r + n ∧
        (call = Call.getTile (ofRank k) ∨
         call = Call.pred (ofRank k) (m.mTiles (ofRank k).z (ofRank k).x).tile) := by
  induction n with
  | zero => intro r call h; simp [scanCalls] at h
  | succ n ih =>
    intro r call h
    simp only [scanCalls, List.mem_cons] at h
    rcases h with h | h | h
    · exact ⟨r, le_refl r, by omega, Or.inl h⟩
    · exact ⟨r, le_refl r, by omega, Or.inr h⟩
    · cases hacc : acc (ofRank r) with
      | true => simp [hacc] at h
      | false =>
        simp only [hacc, Bool.false_eq_true, if_false] at h
        obtain ⟨k, h1, h2, h3⟩ := ih (r + 1) call h
        exact ⟨k, by omega, by omega, h3⟩

theorem scanCalls_sound (m : MapIndex) (acc : tile_index → Bool) (n r : Nat) (hrn : r + n ≤ 4096) :
    (∀ c1, Call.loadTile c1 ∉ scanCalls m acc n r) ∧
    (∀ c1, Call.getTile c1 ∈ scanCalls m acc n r → inRange c1) ∧
    (∀ c1 t, Call.pred c1 t ∈ scanCalls m acc n r → inRange c1 ∧ getTile m c1 = .ok t) := by
  refine ⟨fun c1 h => ?_, fun c1 h => ?_, fun c1 t h => ?_⟩
  · obtain ⟨k, _, _, h3 | h3⟩ := mem_scanCalls m acc n r _ h <;> simp at h3
  · obtain ⟨k, _, h2, h3 | h3⟩ := mem_scanCalls m acc n r _ h
    · simp only [Call.getTile.injEq] at h3
      rw [h3]
      exact inRange_ofRank k (by omega)
    · simp at h3
  · obtain ⟨k, _, h2, h3 | h3⟩ := mem_scanCalls m acc n r _ h
    · simp at h3
    · simp only [Call.pred.injEq] at h3
      have hin : inRange (ofRank k) := inRange_ofRank k (by omega)
      have hin2 : (ofRank k).x < 64 ∧ (ofRank k).z < 64 := hin
      rw [h3.1, h3.2]
      exact ⟨hin, by simp [getTile, hin2]⟩

theorem loadedEntry_flags (env : Env) (b : String) (i : Int) (c : tile_index) (e : MapTileEntry) :
    (loadedEntry env b i c e).flags = e.flags := by
  simp only [loadedEntry]
  cases e.tile with
  | some t => rfl
  | none =>
    cases env.terrain e.flags with
    | false => rfl
    | true =>
      cases env.load b i c with
      | ok t => rfl
      | error e0 => rfl

theorem loadedEntry_idem (env : Env) (b : String) (i : Int) (c : tile_index) (e : MapTileEntry) :
    loadedEntry env b i c (loadedEntry env b i c e) = loadedEntry env b i c e := by
  cases ht : e.tile with
  | some t => simp [loadedEntry, ht]
  | none =>
    cases hh : env.terrain e.flags with
    | false => simp [loadedEntry, ht, hh]
    | true =>
      cases hl : env.load b i c with
      | ok t => simp [loadedEntry, ht, hh, hl]
      | error e0 => simp [loadedEntry, ht, hh, hl]

theorem indexAfter_force (env : Env) (cs : List tile_index) :
    ∀ m, (∀ c ∈ cs, inRange c) →
      (indexAfter true env m cs).basename = m.basename ∧
      (indexAfter true env m cs)._map_id = m._map_id ∧
      ∀ c : tile_index, (indexAfter true env m cs).mTiles c.z c.x =
        if c ∈ cs then loadedEntry env m.basename m._map_id c (m.mTiles c.z c.x)
        else m.mTiles c.z c.x := by
  induction cs with
  | nil => intro m _; simp [indexAfter]
  | cons c0 cs ih =>
    intro m hin
    have hc0 : inRange c0 := hin c0 (List.mem_cons_self _ _)
    have hstep : indexAfter true env m (c0 :: cs) =
        indexAfter true env
          (setSlot m c0 (loadedEntry env m.basename m._map_id c0 (m.mTiles c0.z c0.x))) cs := by
      simp only [indexAfter, List.foldl_cons, derefIndex_force env m c0 hc0]
    obtain ⟨h1, h2, h3⟩ :=
      ih (setSlot m c0 (loadedEntry env m.basename m._map_id c0 (m.mTiles c0.z c0.x)))
        (fun c hc => hin c (List.mem_cons_of_mem _ hc))
    rw [hstep]
    refine ⟨h1, h2, fun c => ?_⟩
    rw [h3 c]
    by_cases hcc : c = c0
    · subst hcc
      simp [setSlot, loadedEntry_idem]
    · have hne : ¬ (c.z = c0.z ∧ c.x = c0.x) := by
        rintro ⟨h4, h5⟩
        apply hcc
        cases c
        cases c0
        simp_all
      simp [setSlot, hne, hcc]

theorem tiles_in_range_run {F : Type} (env : Env) (fe : FloatEnv F) (s : State)
    (this : MapIndexPtr) (pos : vector_3d F) (radius : F) :
    ∃ rng s1 vs s2, tiles_in_range env fe s this pos radius = .ok (rng, s1) ∧
      s1.index = s.index ∧ for_each env s1 rng = .ok (vs, s2) ∧
      vs.map Visit.coord = raster.filter (accepts (in_range_pred env fe pos radius) s.index) ∧
      ∀ c : tile_index, s2.index.mTiles c.z c.x =
        if inRange c ∧ accepts (in_range_pred env fe pos radius) s.index c = true then
          loadedEntry env s.index.basename s.index._map_id c (s.index.mTiles c.z c.x)
        else s.index.mTiles c.z c.x := by
  obtain ⟨cs1, cs2, h1, h2⟩ := @tiles_for_each true env (in_range_pred env fe pos radius) this
    (fun m => ∀ z x, (m.mTiles z x).flags = (s.index.mTiles z x).flags)
    (accepts (in_range_pred env fe pos radius) s.index)
    (fun m c hm hc z x => by
      rw [derefIndex_force env m c hc, ← hm z x]
      by_cases h : z = c.z ∧ x = c.x
      · obtain ⟨rfl, rfl⟩ := h
        simp [setSlot, loadedEntry_flags]
      · simp [setSlot, h])
    (fun m c hm _ => by simp only [accepts, in_range_pred, hasTile, hm c.z c.x])
    s (fun _ _ => rfl)
  refine ⟨_, _, _, _, h1, rfl, h2, visitAll_coord _ _ _ _, fun c => ?_⟩
  have hin : ∀ c ∈ raster.filter (accepts (in_range_pred env fe pos radius) s.index), inRange c :=
    fun c hc => ((accepted_mem _ c).mp hc).1
  rw [(indexAfter_force env _ s.index hin).2.2 c]
  simp only [accepted_mem]

/-! ## Lemmas on the call log -/

theorem eval_pred_calls {Load : Bool} (s s1 : State) (it : tile_iterator Load) (b : Bool)
    (h : eval_pred s it = .ok (b, s1)) :
    ∀ c, Call.loadTile c ∈ s1.calls → Call.loadTile c ∈ s.calls := by
  intro c hc
  simp only [eval_pred] at h
  cases hi : it._index with
  | none => simp [hi] at h
  | some q =>
    cases hg : getTile s.index it._tile with
    | error f => simp [hi, hg] at h
    | ok t =>
      simp only [hi, hg, Except.ok.injEq, Prod.mk.injEq] at h
      rw [← h.2] at hc
      simpa using hc

theorem operator_pp_loop_calls {Load : Bool} (fuel : Nat) :
    ∀ (s s1 : State) (it it1 : tile_iterator Load), operator_pp_loop fuel s it = .ok (it1, s1) →
      ∀ c, Call.loadTile c ∈ s1.calls → Call.loadTile c ∈ s.calls := by
  induction fuel with
  | zero => intro s s1 it it1 h; simp [operator_pp_loop] at h
  | succ f ih =>
    intro s s1 it it1 h c hc
    simp only [operator_pp_loop] at h
    cases hst : step_tile it._tile with
    | none =>
      simp only [hst, Except.ok.injEq, Prod.mk.injEq] at h
      rw [h.2]
      exact hc
    | some t =>
      simp only [hst] at h
      cases hev : eval_pred s ({ it with _tile := t } : tile_iterator Load) with
      | error e => simp [hev] at h
      | ok r =>
        obtain ⟨b, s0⟩ := r
        have h0 := eval_pred_calls s s0 _ b hev
        cases b with
        | true =>
          simp only [hev, Except.ok.injEq, Prod.mk.injEq] at h
          rw [← h.2] at hc
          exact h0 c hc
        | false =>
          simp only [hev] at h
          exact h0 c (ih s0 s1 _ it1 h c hc)

theorem ctor_calls (Load : Bool) (s s1 : State) (idx : Option MapIndexPtr) (c0 : tile_index)
    (pred : Pred) (it : tile_iterator Load) (h : tile_iterator.ctor Load s idx c0 pred = .ok (it, s1)) :
    ∀ c, Call.loadTile c ∈ s1.calls → Call.loadTile c ∈ s.calls := by
  intro c hc
  simp only [tile_iterator.ctor] at h
  cases hev : eval_pred s (⟨idx, c0, pred⟩ : tile_iterator Load) with
  | error e => simp [hev] at h
  | ok r =>
    obtain ⟨b, s0⟩ := r
    have h0 := eval_pred_calls s s0 _ b hev
    cases b with
    | true =>
      simp only [hev, Except.ok.injEq, Prod.mk.injEq] at h
      rw [← h.2] at hc
      exact h0 c hc
    | false =>
      simp only [hev] at h
      exact h0 c (operator_pp_loop_calls 4096 s0 s1 _ it h c hc)

theorem operator_deref_calls {Load : Bool} (env : Env) (s s1 : State) (it : tile_iterator Load)
    (v : Except FormatError (Option MapTile)) (h : operator_deref env s it = .ok (v, s1)) :
    ∀ c, Call.loadTile c ∈ s1.calls → Call.loadTile c ∈ s.calls ∨ c = it._tile := by
  intro c hc
  simp only [operator_deref] at h
  cases hi : it._index with
  | none => simp [hi] at h
  | some q =>
    cases Load with
    | true =>
      cases hl : loadTile env s.index it._tile with
      | error f => simp [hi, hl] at h
      | ok r =>
        simp only [hi, hl, if_true, Except.ok.injEq, Prod.mk.injEq] at h
        rw [← h.2] at hc
        simpa using hc
    | false =>
      cases hg : getTile s.index it._tile with
      | error f => simp [hi, hg] at h
      | ok t =>
        simp only [hi, hg, Bool.false_eq_true, if_false, Except.ok.injEq, Prod.mk.injEq] at h
        rw [← h.2] at hc
        left
        simpa using hc

theorem traverse_calls {Load : Bool} (env : Env) (fuel : Nat) :
    ∀ (s s2 : State) (it last : tile_iterator Load) (vs : List Visit),
      traverse env fuel s it last = .ok (vs, s2) →
      ∀ c, Call.loadTile c ∈ s2.calls → Call.loadTile c ∈ s.calls ∨ c ∈ vs.map Visit.coord := by
  induction fuel with
  | zero => intro s s2 it last vs h; simp [traverse] at h
  | succ f ih =>
    intro s s2 it last vs h c hc
    simp only [traverse] at h
    cases hne : operator_ne it last with
    | false =>
      simp only [hne, Bool.false_eq_true, if_false, Except.ok.injEq, Prod.mk.injEq] at h
      rw [h.2]
      exact Or.inl hc
    | true =>
      simp only [hne, if_true] at h
      cases hd : operator_deref env s it with
      | error e => simp [hd] at h
      | ok r1 =>
        obtain ⟨v, sa⟩ := r1
        simp only [hd] at h
        cases hp : operator_pp sa it with
        | error e => simp [hp] at h
        | ok r2 =>
          obtain ⟨it1, sb⟩ := r2
          simp only [hp] at h
          cases ht : traverse env f sb it1 last with
          | error e => simp [ht] at h
          | ok r3 =>
            obtain ⟨ws, sc⟩ := r3
            simp only [ht, Except.ok.injEq, Prod.mk.injEq] at h
            obtain ⟨hvs, hs2⟩ := h
            rw [← hs2] at hc
            rw [← hvs]
            rcases ih sb sc it1 last ws ht c hc with h1 | h1
            · rcases operator_deref_calls env s sa it v hd c
                (operator_pp_loop_calls 4096 sa sb it it1 hp c h1) with h2 | h2
              · exact Or.inl h2
              · right
                simp [h2]
            · right
              simp only [List.map_cons, List.mem_cons]
              exact Or.inr h1

/-! ## Lemmas on the end state -/

theorem eval_pred_index {Load : Bool} (s : State) (it : tile_iterator Load) (r : Bool × State)
    (h : eval_pred s it = .ok r) : it._index ≠ none := by
  intro hi
  simp [eval_pred, hi] at h

theorem operator_pp_loop_end {Load : Bool} (fuel : Nat) :
    ∀ (s s1 : State) (it it1 : tile_iterator Load), operator_pp_loop fuel s it = .ok (it1, s1) →
      it1._index = none → it1._tile = ⟨0, 0⟩ := by
  induction fuel with
  | zero => intro s s1 it it1 h; simp [operator_pp_loop] at h
  | succ f ih =>
    intro s s1 it it1 h hnone
    simp only [operator_pp_loop] at h
    cases hst : step_tile it._tile with
    | none =>
      simp only [hst, Except.ok.injEq, Prod.mk.injEq] at h
      rw [← h.1]
    | some t =>
      simp only [hst] at h
      cases hev : eval_pred s ({ it with _tile := t } : tile_iterator Load) with
      | error e => simp [hev] at h
      | ok r =>
        obtain ⟨b, s0⟩ := r
        cases b with
        | true =>
          simp only [hev, Except.ok.injEq, Prod.mk.injEq] at h
          have := eval_pred_index s _ _ hev
          rw [← h.1] at hnone
          exact absurd hnone this
        | false =>
          simp only [hev] at h
          exact ih s0 s1 _ it1 h hnone

theorem ctor_end (Load : Bool) (s s1 : State) (idx : Option MapIndexPtr) (c0 : tile_index)
    (pred : Pred) (it1 : tile_iterator Load)
    (h : tile_iterator.ctor Load s idx c0 pred = .ok (it1, s1)) :
    it1._index = none → it1._tile = ⟨0, 0⟩ := by
  intro hnone
  simp only [tile_iterator.ctor] at h
  cases hev : eval_pred s (⟨idx, c0, pred⟩ : tile_iterator Load) with
  | error e => simp [hev] at h
  | ok r =>
    obtain ⟨b, s0⟩ := r
    cases b with
    | true =>
      simp only [hev, Except.ok.injEq, Prod.mk.injEq] at h
      have := eval_pred_index s _ _ hev
      rw [← h.1] at hnone
      exact absurd hnone this
    | false =>
      simp only [hev] at h
      exact operator_pp_loop_end 4096 s0 s1 _ it1 h hnone

theorem end_state_compare {Load : Bool} (it1 : tile_iterator Load)
    (h : it1._index = none → it1._tile = ⟨0, 0⟩) :
    (it1._index = none →
      it1._tile = ⟨0, 0⟩ ∧ operator_eq it1 (tile_iterator.default_ctor Load) = true) ∧
    (it1._index ≠ none →
      operator_eq it1 (tile_iterator.default_ctor Load) = false ∧
      operator_ne it1 (tile_iterator.default_ctor Load) = true) := by
  refine ⟨fun hn => ⟨h hn, by simp [operator_eq, tile_iterator.default_ctor, hn, h hn]⟩,
    fun hn => ?_⟩
  have : operator_eq it1 (tile_iterator.default_ctor Load) = false := by
    simp [operator_eq, tile_iterator.default_ctor, hn]
  exact ⟨this, by simp [operator_ne, this]⟩

theorem arrive_ne_end_iff {Load : Bool} (it : tile_iterator Load) (p : MapIndexPtr)
    (hidx : it._index = some p) (acc : tile_index → Bool) (n r : Nat) (hrn : r + n = 4096) :
    operator_ne (arrive it (firstFrom acc n r)) (tile_iterator.default_ctor Load) = false ↔
      ∀ c, inRange c → r ≤ rank c → acc c = false := by
  rcases firstFrom_cases acc n r with ⟨hn, hall⟩ | ⟨k, hk, h1, h2, h3, _⟩
  · rw [hn]
    refine ⟨fun _ c hc hle => ?_, fun _ => by
      simp [arrive, operator_ne, operator_eq, tile_iterator.default_ctor]⟩
    have := hall (rank c) hle (by have := rank_lt c hc; omega)
    rwa [ofRank_rank c hc] at this
  · rw [hk]
    refine ⟨fun h => ?_, fun h => ?_⟩
    · simp [arrive, operator_ne, operator_eq, tile_iterator.default_ctor, hidx] at h
    · have := h (ofRank k) (inRange_ofRank k (by omega)) (by rw [rank_ofRank]; exact h1)
      rw [h3] at this
      exact absurd this (by simp)

/-! ## Lemmas on predicate evaluations -/

theorem predCoords_scanCalls (m : MapIndex) (acc : tile_index → Bool) (n : Nat) :
    ∀ r, ∃ j, j ≤ n ∧ predCoords (scanCalls m acc n r) = (List.range' r j).map ofRank ∧
      (firstFrom acc n r = none → j = n) ∧ (∀ k, firstFrom acc n r = some k → r + j = k + 1) := by
  induction n with
  | zero => intro r; exact ⟨0, le_refl 0, rfl, fun _ => rfl, fun k h => by simp [firstFrom] at h⟩
  | succ n ih =>
    intro r
    cases hacc : acc (ofRank r) with
    | true =>
      refine ⟨1, by omega, by simp [scanCalls, predCoords, hacc, List.range'], ?_, ?_⟩
      · intro h; simp [firstFrom, hacc] at h
      · intro k h
        simp only [firstFrom, hacc, if_true, Option.some.injEq] at h
        omega
    | false =>
      obtain ⟨j, hj, hp, hn, hs⟩ := ih (r + 1)
      refine ⟨j + 1, by omega, ?_, ?_, ?_⟩
      · simp [scanCalls, predCoords, hacc, List.range', hp]
      · intro h
        simp only [firstFrom, hacc, Bool.false_eq_true, if_false] at h
        rw [hn h]
      · intro k h
        simp only [firstFrom, hacc, Bool.false_eq_true, if_false] at h
        have := hs k h
        omega

theorem advance_while_safe {Load : Bool} (p : MapIndexPtr) (n : Nat) :
    ∀ (s : State) (it : tile_iterator Load),
      ((it._index = none ∧ it._tile = ⟨0, 0⟩) ∨ (it._index = some p ∧ inRange it._tile)) →
      ∃ it1 cs, advance_while n s it = .ok (it1, ⟨s.index, s.calls ++ cs⟩) ∧
        (∀ c1, Call.getTile c1 ∈ cs → inRange c1) ∧
        (∀ c1 t, Call.pred c1 t ∈ cs → inRange c1 ∧ getTile s.index c1 = .ok t) ∧
        ((it1._index = none ∧ it1._tile = ⟨0, 0⟩) ∨ (it1._index = some p ∧ inRange it1._tile)) := by
  induction n with
  | zero =>
    intro s it hg
    exact ⟨it, [], by simp [advance_while], by simp, by simp, hg⟩
  | succ n ih =>
    intro s it hg
    rcases hg with ⟨hi, ht⟩ | ⟨hi, hr⟩
    · refine ⟨it, [], ?_, by simp, by simp, Or.inl ⟨hi, ht⟩⟩
      simp [advance_while, operator_ne, operator_eq, tile_iterator.default_ctor, hi, ht]
    · have hlt := rank_lt _ hr
      have hne : operator_ne it (tile_iterator.default_ctor Load) = true := by
        simp [operator_ne, operator_eq, tile_iterator.default_ctor, hi]
      have hpp := operator_pp_scan s it p hi hr
      have hsound := scanCalls_sound s.index (accepts it._pred s.index) (4095 - rank it._tile)
        (rank it._tile + 1) (by omega)
      have hgood : ((arrive it (firstFrom (accepts it._pred s.index) (4095 - rank it._tile)
            (rank it._tile + 1)))._index = none ∧
          (arrive it (firstFrom (accepts it._pred s.index) (4095 - rank it._tile)
            (rank it._tile + 1)))._tile = ⟨0, 0⟩) ∨
          ((arrive it (firstFrom (accepts it._pred s.index) (4095 - rank it._tile)
            (rank it._tile + 1)))._index = some p ∧
          inRange (arrive it (firstFrom (accepts it._pred s.index) (4095 - rank it._tile)
            (rank it._tile + 1)))._tile) := by
        rcases firstFrom_cases (accepts it._pred s.index) (4095 - rank it._tile)
          (rank it._tile + 1) with ⟨hn, _⟩ | ⟨k, hk, _, h2, _, _⟩
        · rw [hn]; exact Or.inl ⟨rfl, rfl⟩
        · rw [hk]; exact Or.inr ⟨hi, inRange_ofRank k (by omega)⟩
      obtain ⟨it2, cs2, h1, h2, h3, h4⟩ := ih
        ⟨s.index, s.calls ++ scanCalls s.index (accepts it._pred s.index) (4095 - rank it._tile)
          (rank it._tile + 1)⟩ _ hgood
      refine ⟨it2, scanCalls s.index (accepts it._pred s.index) (4095 - rank it._tile)
          (rank it._tile + 1) ++ cs2, ?_, fun c1 hc => ?_, fun c1 t hc => ?_, h4⟩
      · simp only [advance_while, hne, if_true, hpp, h1, List.append_assoc]
      · rcases List.mem_append.mp hc with h5 | h5
        · exact hsound.2.1 c1 h5
        · exact h2 c1 h5
      · rcases List.mem_append.mp hc with h5 | h5
        · exact hsound.2.2 c1 t h5
        · exact h3 c1 t h5

/-! ## Lemmas on the answers the predicate gives during a traversal -/

theorem firstFrom_asked (m : MapIndex) (a b : tile_index → Bool) (n : Nat) :
    ∀ r, (∀ c ∈ predCoords (scanCalls m a n r), a c = b c) →
      firstFrom a n r = firstFrom b n r := by
  induction n with
  | zero => intro r _; rfl
  | succ n ih =>
    intro r h
    have h0 : a (ofRank r) = b (ofRank r) := h _ (by simp [scanCalls, predCoords])
    cases ha : a (ofRank r) with
    | true =>
      have hb : b (ofRank r) = true := by rw [← h0]; exact ha
      simp [firstFrom, ha, hb]
    | false =>
      have hb : b (ofRank r) = false := by rw [← h0]; exact ha
      simp only [firstFrom, ha, hb, Bool.false_eq_true, if_false]
      apply ih
      intro c hc
      apply h
      simp [scanCalls, predCoords, ha, hc]

theorem traverse_arrive_asked {Load : Bool} (env : Env) (pred : Pred) (p : MapIndexPtr)
    (c0 : tile_index) (acc : tile_index → Bool) (n : Nat) :
    ∀ (fuel r : Nat) (s : State), r + n = 4096 → n < fuel →
      (∀ e ∈ traverse_evals env fuel s
          (arrive (⟨some p, c0, pred⟩ : tile_iterator Load) (firstFrom acc n r))
          (tile_iterator.default_ctor Load),
        ∀ c ∈ e.2, accepts pred e.1 c = acc c) →
      ∃ cs, traverse env fuel s (arrive (⟨some p, c0, pred⟩ : tile_iterator Load) (firstFrom acc n r))
          (tile_iterator.default_ctor Load) =
        .ok (visitAll Load env s.index (acceptedFrom acc n r),
             ⟨indexAfter Load env s.index (acceptedFrom acc n r), cs⟩) := by
  induction n using Nat.strong_induction_on with
  | _ n ih =>
    intro fuel r s hrn hf hev
    obtain ⟨f, rfl⟩ : ∃ f, fuel = f + 1 := ⟨fuel - 1, by omega⟩
    rw [acceptedFrom_firstFrom acc n r]
    rcases firstFrom_cases acc n r with ⟨hn, _⟩ | ⟨k, hk, h1, h2, h3, _⟩
    · rw [hn]
      exact ⟨s.calls, by simp [traverse, arrive, operator_ne, operator_eq,
        tile_iterator.default_ctor, visitAll, indexAfter]⟩
    · rw [hk] at hev ⊢
      have hk4 : k < 4096 := by omega
      have hin : inRange (ofRank k) := inRange_ofRank k hk4
      obtain ⟨cs1, hd⟩ := operator_deref_ok env s
        (arrive (⟨some p, c0, pred⟩ : tile_iterator Load) (some k)) p rfl hin
      have hpp := operator_pp_scan ⟨derefIndex Load env s.index (ofRank k), cs1⟩
        (arrive (⟨some p, c0, pred⟩ : tile_iterator Load) (some k)) p rfl hin
      have hne : operator_ne (⟨some p, ofRank k, pred⟩ : tile_iterator Load)
          (tile_iterator.default_ctor Load) = true := by
        simp [operator_ne, operator_eq, tile_iterator.default_ctor]
      simp only [arrive, rank_ofRank] at hpp hd
      simp only [traverse_evals, arrive, hne, if_true, hd, hpp, List.drop_left,
        List.forall_mem_cons] at hev
      obtain ⟨hhead, htail⟩ := hev
      have hfe : firstFrom (accepts pred (derefIndex Load env s.index (ofRank k))) (4095 - k) (k + 1)
          = firstFrom acc (4095 - k) (k + 1) :=
        firstFrom_asked _ _ _ _ _ hhead
      rw [hfe] at hpp htail
      obtain ⟨cs2, hrec⟩ := ih (4095 - k) (by omega) f (k + 1)
        ⟨derefIndex Load env s.index (ofRank k),
         cs1 ++ scanCalls (derefIndex Load env s.index (ofRank k))
           (accepts pred (derefIndex Load env s.index (ofRank k))) (4095 - k) (k + 1)⟩
        (by omega) (by omega) (by simpa only [arrive] using htail)
      have hnk : r + n - (k + 1) = 4095 - k := by omega
      refine ⟨cs2, ?_⟩
      simp only [traverse, arrive, hne, if_true, hd, hpp]
      simp only [arrive] at hrec
      cases hff : firstFrom acc (4095 - k) (k + 1) with
      | none =>
        rw [hff] at hrec
        simp only [hrec, hnk, visitAll, indexAfter, List.foldl_cons]
      | some j =>
        rw [hff] at hrec
        simp only [hrec, hnk, visitAll, indexAfter, List.foldl_cons]

theorem tiles_for_each_asked {Load : Bool} (env : Env) (pred : Pred) (this : MapIndexPtr)
    (s : State)
    (hev : ∀ rng s1, tiles Load s this pred = .ok (rng, s1) →
      ∀ e ∈ for_each_evals env s1 rng, ∀ c ∈ e.2, accepts pred e.1 c = accepts pred s.index c) :
    ∃ rng cs1 cs2, tiles Load s this pred = .ok (rng, ⟨s.index, cs1⟩) ∧
      for_each env ⟨s.index, cs1⟩ rng =
        .ok (visitAll Load env s.index (raster.filter (accepts pred s.index)),
             ⟨indexAfter Load env s.index (raster.filter (accepts pred s.index)), cs2⟩) := by
  have hc := ctor_scan Load s this ⟨0, 0⟩ pred (by decide)
  have h0 : 4096 - rank ⟨0, 0⟩ = 4096 := by decide
  have h1 : rank ⟨0, 0⟩ = 0 := by decide
  rw [h0, h1] at hc
  have ht : tiles Load s this pred =
      .ok ((arrive (⟨some this, ⟨0, 0⟩, pred⟩ : tile_iterator Load)
              (firstFrom (accepts pred s.index) 4096 0), tile_iterator.default_ctor Load),
           ⟨s.index, s.calls ++ scanCalls s.index (accepts pred s.index) 4096 0⟩) := by
    simp only [tiles, hc]
  obtain ⟨cs2, htr⟩ := traverse_arrive_asked env pred this ⟨0, 0⟩ (accepts pred s.index) 4096
    4097 0 ⟨s.index, s.calls ++ scanCalls s.index (accepts pred s.index) 4096 0⟩ (by omega)
    (by omega) (hev _ _ ht)
  refine ⟨_, _, cs2, ht, ?_⟩
  rw [raster_filter]
  exact htr

theorem derefIndex_loaded (Load : Bool) (env : Env) (m : MapIndex) (c : tile_index)
    (hr : inRange c) (hl : (m.mTiles c.z c.x).tile.isSome = true) :
    derefIndex Load env m c = m := by
  cases Load with
  | false => simp [derefIndex]
  | true =>
    obtain ⟨t, ht⟩ := Option.isSome_iff_exists.mp hl
    rw [derefIndex_force env m c hr]
    have : loadedEntry env m.basename m._map_id c (m.mTiles c.z c.x) = m.mTiles c.z c.x := by
      simp [loadedEntry, ht]
    rw [this, setSlot_self]

theorem arrive_pred {Load : Bool} (it : tile_iterator Load) (o : Option Nat) :
    (arrive it o)._pred = it._pred := by
  cases o <;> rfl

theorem arrive_position {Load : Bool} (it : tile_iterator Load) (p : MapIndexPtr)
    (hidx : it._index = some p) (acc : tile_index → Bool) (n r : Nat) (hrn : r + n ≤ 4096) :
    (arrive it (firstFrom acc n r))._index = none ∨
      ((arrive it (firstFrom acc n r))._index = some p ∧
        inRange (arrive it (firstFrom acc n r))._tile ∧
        acc (arrive it (firstFrom acc n r))._tile = true) := by
  rcases firstFrom_cases acc n r with ⟨hn, _⟩ | ⟨k, hk, _, h2, h3, _⟩
  · rw [hn]; exact Or.inl rfl
  · rw [hk]; exact Or.inr ⟨hidx, inRange_ofRank k (by omega), h3⟩

theorem traverse_evals_inv {Load : Bool} (env : Env) (pred : Pred) (p : MapIndexPtr)
    (I : MapIndex → Prop)
    (hI : ∀ m c, I m → inRange c → accepts pred m c = true → I (derefIndex Load env m c))
    (fuel : Nat) :
    ∀ (s : State) (it last : tile_iterator Load), I s.index → it._pred = pred →
      (it._index = none ∨
        (it._index = some p ∧ inRange it._tile ∧ accepts pred s.index it._tile = true)) →
      ∀ e ∈ traverse_evals env fuel s it last, I e.1 := by
  induction fuel with
  | zero => intro s it last _ _ _ e he; simp [traverse_evals] at he
  | succ f ih =>
    intro s it last hIs hp hit e he
    simp only [traverse_evals] at he
    cases hne : operator_ne it last with
    | false => simp [hne] at he
    | true =>
      simp only [hne, if_true] at he
      rcases hit with hi | ⟨hi, hr, ha⟩
      · simp [operator_deref, hi] at he
      · obtain ⟨cs1, hd⟩ := operator_deref_ok env s it p hi hr
        have hpp := operator_pp_scan ⟨derefIndex Load env s.index it._tile, cs1⟩ it p hi hr
        have hI1 : I (derefIndex Load env s.index it._tile) := hI _ _ hIs hr ha
        have hlt := rank_lt _ hr
        simp only [hd, hpp, List.mem_cons] at he
        rcases he with he | he
        · rw [he]
          exact hI1
        · have hpos := arrive_position it p hi
            (accepts it._pred (derefIndex Load env s.index it._tile))
            (4095 - rank it._tile) (rank it._tile + 1) (by omega)
          rw [hp] at hpos he
          exact ih ⟨derefIndex Load env s.index it._tile, _⟩ _ last hI1
            ((arrive_pred it _).trans hp) hpos e he

/-! ## The claims -/

/-- C1: for every predicate and every non-end `tile_iterator` on an in-range coordinate,
`operator++` returns with the iterator on the accepted coordinate of smallest raster rank
strictly greater than the current one (same index, same predicate), and in the end state
(index null) exactly when no later coordinate is accepted; advancing from `(63, 63)` always
gives the end state. -/
theorem C1_operator_pp_next_accepted {Load : Bool} (s : State) (it : tile_iterator Load)
    (p : MapIndexPtr) (hidx : it._index = some p) (hr : inRange it._tile) :
    ∃ it1 s1, operator_pp s it = .ok (it1, s1) ∧ it1._pred = it._pred ∧
      (it1._index = none ↔
        ∀ c, inRange c → rank it._tile < rank c → accepts it._pred s.index c = false) ∧
      (it1._index ≠ none →
        it1._index = some p ∧ inRange it1._tile ∧ rank it._tile < rank it1._tile ∧
        accepts it._pred s.index it1._tile = true ∧
        ∀ c, inRange c → rank it._tile < rank c → rank c < rank it1._tile →
          accepts it._pred s.index c = false) ∧
      (it._tile = ⟨63, 63⟩ → it1._index = none) := by
  have hlt := rank_lt _ hr
  refine ⟨_, _, operator_pp_scan s it p hidx hr, ?_⟩
  rcases firstFrom_cases (accepts it._pred s.index) (4095 - rank it._tile) (rank it._tile + 1) with
    ⟨hn, hall⟩ | ⟨k, hk, h1, h2, h3, h4⟩
  · rw [hn]
    refine ⟨rfl, ⟨fun _ c hc hlt2 => ?_, fun _ => rfl⟩, fun h => absurd rfl h, fun _ => rfl⟩
    have := hall (rank c) (by omega) (by have := rank_lt c hc; omega)
    rwa [ofRank_rank c hc] at this
  · rw [hk]
    have hk4 : k < 4096 := by omega
    refine ⟨rfl, ⟨fun h => ?_, fun h => ?_⟩, fun _ => ?_, fun h => ?_⟩
    · simp [arrive, hidx] at h
    · have := h (ofRank k) (inRange_ofRank k hk4) (by rw [rank_ofRank]; omega)
      rw [h3] at this
      exact absurd this (by simp)
    · refine ⟨hidx, inRange_ofRank k hk4, by simp only [arrive, rank_ofRank]; omega, h3, ?_⟩
      intro c hc hlt2 hlt3
      simp only [arrive, rank_ofRank] at hlt3
      have := h4 (rank c) (by omega) hlt3
      rwa [ofRank_rank c hc] at this
    · rw [h] at h1 h2
      simp only [rank] at h1 h2
      omega

/-- Witness of C1 on `demoIt`, a non-end iterator on `(3, 5)`. -/
theorem C1_operator_pp_next_accepted_witness :
    demoIt._index = some 0 ∧ inRange demoIt._tile ∧
    ∃ it1 s1, operator_pp demoState demoIt = .ok (it1, s1) ∧ it1._pred = demoIt._pred ∧
      (it1._index = none ↔
        ∀ c, inRange c → rank demoIt._tile < rank c →
          accepts demoIt._pred demoState.index c = false) ∧
      (it1._index ≠ none →
        it1._index = some 0 ∧ inRange it1._tile ∧ rank demoIt._tile < rank it1._tile ∧
        accepts demoIt._pred demoState.index it1._tile = true ∧
        ∀ c, inRange c → rank demoIt._tile < rank c → rank c < rank it1._tile →
          accepts demoIt._pred demoState.index c = false) ∧
      (demoIt._tile = ⟨63, 63⟩ → it1._index = none) :=
  ⟨rfl, by decide, C1_operator_pp_next_accepted demoState demoIt 0 rfl (by decide)⟩

/-- C2: for every predicate, non-null index and in-range starting coordinate `c`, the
constructor returns with the iterator on `c` itself when the predicate accepts `c` (one
predicate call, no advance), otherwise on the first accepted coordinate after `c` in raster
order, and in the end state exactly when no coordinate at or after `c` is accepted; a non-end
iterator just constructed sits on an accepted coordinate. -/
theorem C2_ctor_first_accepted (Load : Bool) (s : State) (p : MapIndexPtr) (c : tile_index)
    (pred : Pred) (hr : inRange c) :
    ∃ it s1, tile_iterator.ctor Load s (some p) c pred = .ok (it, s1) ∧ it._pred = pred ∧
      (accepts pred s.index c = true →
        it._index = some p ∧ it._tile = c ∧
        s1.calls = s.calls ++ [Call.getTile c, Call.pred c (s.index.mTiles c.z c.x).tile]) ∧
      (accepts pred s.index c = false → it._index ≠ none → rank c < rank it._tile) ∧
      (it._index = none ↔
        ∀ c1, inRange c1 → rank c ≤ rank c1 → accepts pred s.index c1 = false) ∧
      (it._index ≠ none →
        it._index = some p ∧ inRange it._tile ∧ rank c ≤ rank it._tile ∧
        accepts pred s.index it._tile = true ∧
        ∀ c1, inRange c1 → rank c ≤ rank c1 → rank c1 < rank it._tile →
          accepts pred s.index c1 = false) := by
  have hlt := rank_lt _ hr
  refine ⟨_, _, ctor_scan Load s p c pred hr, ?_⟩
  rcases firstFrom_cases (accepts pred s.index) (4096 - rank c) (rank c) with
    ⟨hn, hall⟩ | ⟨k, hk, h1, h2, h3, h4⟩
  · have hall2 : ∀ c1, inRange c1 → rank c ≤ rank c1 → accepts pred s.index c1 = false := by
      intro c1 hc1 hle
      have := hall (rank c1) hle (by have := rank_lt c1 hc1; omega)
      rwa [ofRank_rank c1 hc1] at this
    rw [hn]
    refine ⟨rfl, fun h => ?_, fun _ h => absurd rfl h, ⟨fun _ => hall2, fun _ => rfl⟩,
      fun h => absurd rfl h⟩
    rw [hall2 c hr (le_refl _)] at h
    exact absurd h (by simp)
  · rw [hk]
    have hk4 : k < 4096 := by omega
    refine ⟨rfl, fun h => ?_, fun h _ => ?_, ⟨fun h => ?_, fun h => ?_⟩, fun _ => ?_⟩
    · have hkc : k = rank c := by
        by_contra hne
        have := h4 (rank c) (le_refl _) (by omega)
        rw [ofRank_rank c hr, h] at this
        exact absurd this (by simp)
      subst hkc
      obtain ⟨n, hn⟩ : ∃ n, 4096 - rank c = n + 1 := ⟨4095 - rank c, by omega⟩
      refine ⟨rfl, by simp [arrive, ofRank_rank c hr], ?_⟩
      simp [hn, scanCalls, ofRank_rank c hr, h]
    · simp only [arrive, rank_ofRank]
      by_contra hne
      have hkc : k = rank c := by omega
      rw [hkc, ofRank_rank c hr, h] at h3
      exact absurd h3 (by simp)
    · simp [arrive] at h
    · have := h (ofRank k) (inRange_ofRank k hk4) (by rw [rank_ofRank]; exact h1)
      rw [h3] at this
      exact absurd this (by simp)
    · refine ⟨rfl, inRange_ofRank k hk4, by simp only [arrive, rank_ofRank]; exact h1, h3, ?_⟩
      intro c1 hc1 hle hlt3
      simp only [arrive, rank_ofRank] at hlt3
      have := h4 (rank c1) hle hlt3
      rwa [ofRank_rank c1 hc1] at this

/-- Witness of C2: construction at `(3, 5)` on `demoIndex` with the default predicate. -/
theorem C2_ctor_first_accepted_witness :
    inRange ⟨3, 5⟩ ∧
    ∃ it s1, tile_iterator.ctor false demoState (some 0) ⟨3, 5⟩ tiles_default_pred = .ok (it, s1) ∧
      it._pred = tiles_default_pred ∧
      (accepts tiles_default_pred demoState.index ⟨3, 5⟩ = true →
        it._index = some 0 ∧ it._tile = ⟨3, 5⟩ ∧
        s1.calls = demoState.calls ++
          [Call.getTile ⟨3, 5⟩, Call.pred ⟨3, 5⟩ (demoState.index.mTiles 5 3).tile]) ∧
      (accepts tiles_default_pred demoState.index ⟨3, 5⟩ = false → it._index ≠ none →
        rank ⟨3, 5⟩ < rank it._tile) ∧
      (it._index = none ↔
        ∀ c1, inRange c1 → rank ⟨3, 5⟩ ≤ rank c1 →
          accepts tiles_default_pred demoState.index c1 = false) ∧
      (it._index ≠ none →
        it._index = some 0 ∧ inRange it._tile ∧ rank ⟨3, 5⟩ ≤ rank it._tile ∧
        accepts tiles_default_pred demoState.index it._tile = true ∧
        ∀ c1, inRange c1 → rank ⟨3, 5⟩ ≤ rank c1 → rank c1 < rank it._tile →
          accepts tiles_default_pred demoState.index c1 = false) :=
  ⟨by decide, C2_ctor_first_accepted false demoState 0 ⟨3, 5⟩ tiles_default_pred (by decide)⟩

/-- C3: for every predicate whose answers do not change during the traversal (every answer
it gives in an `operator++` of the traversal is the answer it gives for that coordinate at the
start), the coordinates visited by iterating `tiles<Load> (pred)` from begin to end are the
raster-ordered list of the 4096 coordinates filtered by the predicate: every accepted
coordinate once, in increasing raster rank, no rejected one; with the default predicate all
4096 coordinates. -/
theorem C3_tiles_visits_filtered_raster (Load : Bool) (env : Env) (s : State)
    (this : MapIndexPtr) (pred : Pred)
    (hstable : ∀ rng s1, tiles Load s this pred = .ok (rng, s1) →
      ∀ e ∈ for_each_evals env s1 rng, ∀ c ∈ e.2,
        accepts pred e.1 c = accepts pred s.index c) :
    ∃ rng s1 vs s2, tiles Load s this pred = .ok (rng, s1) ∧ for_each env s1 rng = .ok (vs, s2) ∧
      vs.map Visit.coord = raster.filter (accepts pred s.index) ∧
      (∀ c, c ∈ vs.map Visit.coord ↔ inRange c ∧ accepts pred s.index c = true) ∧
      (vs.map Visit.coord).Nodup ∧
      (vs.map Visit.coord).Pairwise (fun a b => rank a < rank b) ∧
      (pred = tiles_default_pred → vs.map Visit.coord = raster ∧ vs.length = 4096) := by
  obtain ⟨rng, cs1, cs2, h1, h2⟩ := tiles_for_each_asked env pred this s hstable
  refine ⟨_, _, _, _, h1, h2, ?_⟩
  rw [visitAll_coord]
  refine ⟨rfl, accepted_mem _, accepted_nodup _, accepted_pairwise _, fun hp => ?_⟩
  have hall : raster.filter (accepts pred s.index) = raster := by
    rw [List.filter_eq_self]
    intro c _
    rw [hp]
    rfl
  have hlen := congrArg List.length
    (visitAll_coord Load env (raster.filter (accepts pred s.index)) s.index)
  simp only [List.length_map] at hlen
  exact ⟨hall, by rw [hlen, hall, raster_length]⟩

/-- Witness of C3: a force-load traversal of `demoIndex` with the predicate `!!tile`, whose
answers depend on the materialisation state; the traversal dereferences materialised tiles
only, so the index, and with it every answer, stays as it was. -/
theorem C3_tiles_visits_filtered_raster_witness :
    (∀ rng s1, tiles true demoState 0 loaded_pred = .ok (rng, s1) →
      ∀ e ∈ for_each_evals demoEnv s1 rng, ∀ c ∈ e.2,
        accepts loaded_pred e.1 c = accepts loaded_pred demoState.index c) ∧
    ∃ rng s1 vs s2, tiles true demoState 0 loaded_pred = .ok (rng, s1) ∧
      for_each demoEnv s1 rng = .ok (vs, s2) ∧
      vs.map Visit.coord = raster.filter (accepts loaded_pred demoState.index) ∧
      (∀ c, c ∈ vs.map Visit.coord ↔
        inRange c ∧ accepts loaded_pred demoState.index c = true) ∧
      (vs.map Visit.coord).Nodup ∧
      (vs.map Visit.coord).Pairwise (fun a b => rank a < rank b) ∧
      (loaded_pred = tiles_default_pred → vs.map Visit.coord = raster ∧ vs.length = 4096) := by
  have hst : ∀ rng s1, tiles true demoState 0 loaded_pred = .ok (rng, s1) →
      ∀ e ∈ for_each_evals demoEnv s1 rng, ∀ c ∈ e.2,
        accepts loaded_pred e.1 c = accepts loaded_pred demoState.index c := by
    intro rng s1 ht e he c _
    have hc := ctor_scan true demoState 0 ⟨0, 0⟩ loaded_pred (by decide)
    have h0 : 4096 - rank ⟨0, 0⟩ = 4096 := by decide
    have h1 : rank ⟨0, 0⟩ = 0 := by decide
    rw [h0, h1] at hc
    simp only [tiles, hc, Except.ok.injEq, Prod.mk.injEq] at ht
    obtain ⟨hrng, hs1⟩ := ht
    subst hrng
    subst hs1
    simp only [for_each_evals] at he
    have hinv := traverse_evals_inv demoEnv loaded_pred 0 (fun m => m = demoState.index)
      (fun m c hm hr ha => by
        subst hm
        exact derefIndex_loaded true demoEnv _ c hr ha)
      4097
      ⟨demoState.index,
        demoState.calls ++ scanCalls demoState.index (accepts loaded_pred demoState.index) 4096 0⟩
      (arrive (⟨some 0, ⟨0, 0⟩, loaded_pred⟩ : tile_iterator true)
        (firstFrom (accepts loaded_pred demoState.index) 4096 0))
      (tile_iterator.default_ctor true) rfl (arrive_pred _ _)
      (arrive_position (⟨some 0, ⟨0, 0⟩, loaded_pred⟩ : tile_iterator true) 0 rfl
        (accepts loaded_pred demoState.index) 4096 0 (by omega))
      e he
    rw [hinv]
  exact ⟨hst, C3_tiles_visits_filtered_raster true demoEnv demoState 0 loaded_pred hst⟩

/-- C4: for every map state, iterating `loaded_tiles()` visits exactly the coordinates whose
slot holds a materialised tile (`getTile` non-null), each once and in increasing raster order,
yields that tile at each, and changes nothing; when only `(1,1)` and `(63,63)` are loaded it
yields `(1,1)` then `(63,63)` and ends, and when nothing is loaded begin equals end. -/
theorem C4_loaded_tiles_visits_materialised (env : Env) (s : State) (this : MapIndexPtr) :
    ∃ rng s1 vs s2, loaded_tiles s this = .ok (rng, s1) ∧ for_each env s1 rng = .ok (vs, s2) ∧
      s1.index = s.index ∧ s2.index = s.index ∧
      vs.map Visit.coord = raster.filter (tileLoaded s.index) ∧
      (∀ c, c ∈ vs.map Visit.coord ↔ ∃ t, getTile s.index c = .ok (some t)) ∧
      (vs.map Visit.coord).Nodup ∧
      (vs.map Visit.coord).Pairwise (fun a b => rank a < rank b) ∧
      (∀ v ∈ vs, ∃ t, getTile s.index v.coord = .ok (some t) ∧ v.value = .ok (some t)) ∧
      ((∀ c, inRange c → (tileLoaded s.index c = true ↔ c = ⟨1, 1⟩ ∨ c = ⟨63, 63⟩)) →
        vs.map Visit.coord = [⟨1, 1⟩, ⟨63, 63⟩]) ∧
      ((∀ c, inRange c → tileLoaded s.index c = false) → operator_eq rng.1 rng.2 = true) := by
  obtain ⟨cs1, cs2, h1, h2⟩ := @tiles_for_each false env loaded_pred this (fun m => m = s.index)
    (tileLoaded s.index) (fun m c hm _ => by simp [derefIndex, hm])
    (fun m c hm _ => by rw [hm]; rfl) s rfl
  have hpk := visitAll_peek env s.index (raster.filter (tileLoaded s.index))
  have hmem : ∀ c, c ∈ raster.filter (tileLoaded s.index) ↔
      ∃ t, getTile s.index c = .ok (some t) := by
    intro c
    rw [accepted_mem]
    simp only [getTile, tileLoaded, inRange]
    constructor
    · rintro ⟨hc, hl⟩
      obtain ⟨t, ht⟩ := Option.isSome_iff_exists.mp hl
      exact ⟨t, by simp [hc, ht]⟩
    · rintro ⟨t, ht⟩
      by_cases hc : c.x < 64 ∧ c.z < 64
      · simp only [hc, and_self, if_true, Except.ok.injEq] at ht
        exact ⟨hc, by simp [ht]⟩
      · simp [hc] at ht
  refine ⟨_, _, _, _, h1, h2, rfl, hpk.1, ?_⟩
  rw [visitAll_coord]
  refine ⟨rfl, hmem, accepted_nodup _, accepted_pairwise _, fun v hv => ?_, fun h => ?_, fun h => ?_⟩
  · have hc : v.coord ∈ raster.filter (tileLoaded s.index) := by
      have : v.coord ∈ (visitAll false env s.index (raster.filter (tileLoaded s.index))).map
          Visit.coord := List.mem_map_of_mem _ hv
      rwa [visitAll_coord] at this
    obtain ⟨t, ht⟩ := (hmem _).mp hc
    refine ⟨t, ht, ?_⟩
    rw [hpk.2 v hv]
    have hin := ((accepted_mem _ _).mp hc).1
    have hin2 : v.coord.x < 64 ∧ v.coord.z < 64 := hin
    simp only [getTile, hin2, and_self, if_true, Except.ok.injEq] at ht
    rw [ht]
  · rw [raster_filter]
    have := acceptedFrom_two (tileLoaded s.index) 65 4095 (by omega) (by omega) (fun k hk => by
      rw [h (ofRank k) (inRange_ofRank k hk)]
      constructor
      · rintro (h5 | h5)
        · exact Or.inl (ofRank_inj k 65 h5)
        · exact Or.inr (ofRank_inj k 4095 h5)
      · rintro (h5 | h5) <;> subst h5
        · exact Or.inl rfl
        · exact Or.inr rfl)
    exact this
  · have hn : firstFrom (tileLoaded s.index) 4096 0 = none := by
      rcases firstFrom_cases (tileLoaded s.index) 4096 0 with ⟨hn, _⟩ | ⟨k, _, _, h2, h3, _⟩
      · exact hn
      · rw [h (ofRank k) (inRange_ofRank k (by omega))] at h3
        exact absurd h3 (by simp)
    simp [hn, arrive, operator_eq, tile_iterator.default_ctor]

/-- Witness of C4 on `demoIndex`, where only `(1,1)` and `(63,63)` are materialised: the
traversal of `loaded_tiles()` visits `(1,1)`, then `(63,63)`, and ends. -/
theorem C4_loaded_tiles_visits_materialised_witness :
    ∃ rng s1 vs s2, loaded_tiles demoState 0 = .ok (rng, s1) ∧
      for_each demoEnv s1 rng = .ok (vs, s2) ∧ s2.index = demoState.index ∧
      vs.map Visit.coord = [⟨1, 1⟩, ⟨63, 63⟩] := by
  obtain ⟨rng, s1, vs, s2, h1, h2, _, h4, _, _, _, _, _, h10, _⟩ :=
    C4_loaded_tiles_visits_materialised demoEnv demoState 0
  refine ⟨rng, s1, vs, s2, h1, h2, h4, h10 ?_⟩
  rintro ⟨x, z⟩ _
  simp only [tileLoaded, demoState, demoIndex, tile_index.mk.injEq]
  by_cases h1 : z = 1 ∧ x = 1
  · simp [h1]
  · by_cases h2 : z = 63 ∧ x = 63
    · simp [h2]
    · simp only [h1, h2, if_false, Option.isSome_none, Bool.false_eq_true, false_iff]
      omega

/-- C5 as stated fails: two iterators in the end state (index null) that hold different
coordinates compare unequal. -/
theorem C5_end_iterators_counterexample :
    (⟨none, ⟨0, 0⟩, tiles_default_pred⟩ : tile_iterator false)._index = none ∧
    (⟨none, ⟨1, 0⟩, tiles_default_pred⟩ : tile_iterator false)._index = none ∧
    operator_eq (⟨none, ⟨0, 0⟩, tiles_default_pred⟩ : tile_iterator false)
      ⟨none, ⟨1, 0⟩, tiles_default_pred⟩ = false := by
  refine ⟨rfl, rfl, ?_⟩
  decide

/-- C5, amended: two `tile_iterator`s in the end state (index null) compare equal under
`operator==` exactly when they hold the same coordinate. -/
theorem C5_end_iterators_equal_iff_same_coordinate {Load : Bool} (a b : tile_iterator Load)
    (ha : a._index = none) (hb : b._index = none) :
    operator_eq a b = true ↔ a._tile = b._tile := by
  simp [operator_eq, ha, hb]

/-- Witness of the amended C5 on the default-constructed end iterator. -/
theorem C5_end_iterators_equal_iff_same_coordinate_witness :
    (tile_iterator.default_ctor true)._index = none ∧
    (operator_eq (tile_iterator.default_ctor true) (tile_iterator.default_ctor true) = true ↔
      (tile_iterator.default_ctor true)._tile = (tile_iterator.default_ctor true)._tile) :=
  ⟨rfl, C5_end_iterators_equal_iff_same_coordinate _ _ rfl rfl⟩

/-- C6: `a == b` holds iff `a` and `b` have the same owning index and the same coordinate
(`x` and `z` both equal); the predicates play no part; `a != b` is the negation of `a == b`. -/
theorem C6_operator_eq_index_and_coordinate {Load : Bool} (a b : tile_iterator Load) :
    (operator_eq a b = true ↔
      a._index = b._index ∧ a._tile.x = b._tile.x ∧ a._tile.z = b._tile.z) ∧
    (∀ p q : Pred,
      operator_eq ({ a with _pred := p } : tile_iterator Load) { b with _pred := q } =
        operator_eq a b) ∧
    operator_ne a b = !operator_eq a b := by
  refine ⟨?_, fun _ _ => rfl, rfl⟩
  obtain ⟨ai, ⟨ax, az⟩, ap⟩ := a
  obtain ⟨bi, ⟨bx, bz⟩, bp⟩ := b
  simp [operator_eq]

/-- C7: in peek mode (`Load = false`) dereferencing a non-end `tile_iterator` returns exactly
what `getTile` returns at the current coordinate (the materialised tile or null, or its bounds
fault), makes that one `getTile` call and no `loadTile` call, and leaves the `MapIndex`, so the
materialisation state of every slot, as it was. -/
theorem C7_peek_deref_is_getTile (env : Env) (s : State) (it : tile_iterator false)
    (p : MapIndexPtr) (hidx : it._index = some p) :
    (∀ f, getTile s.index it._tile = .error f → operator_deref env s it = .error f) ∧
    (∀ v, getTile s.index it._tile = .ok v →
      operator_deref env s it =
        .ok (.ok v, ⟨s.index, s.calls ++ [Call.getTile it._tile]⟩)) ∧
    (inRange it._tile →
      operator_deref env s it =
        .ok (.ok (s.index.mTiles it._tile.z it._tile.x).tile,
             ⟨s.index, s.calls ++ [Call.getTile it._tile]⟩)) := by
  refine ⟨fun f hf => ?_, fun v hv => ?_, fun hr => ?_⟩
  · simp [operator_deref, hidx, hf]
  · simp [operator_deref, hidx, hv]
  · have hr2 : it._tile.x < 64 ∧ it._tile.z < 64 := hr
    simp [operator_deref, hidx, getTile, hr2]

/-- Witness of C7 on `demoIt`. -/
theorem C7_peek_deref_is_getTile_witness :
    demoIt._index = some 0 ∧
    ((∀ f, getTile demoState.index demoIt._tile = .error f →
        operator_deref demoEnv demoState demoIt = .error f) ∧
    (∀ v, getTile demoState.index demoIt._tile = .ok v →
      operator_deref demoEnv demoState demoIt =
        .ok (.ok v, ⟨demoState.index, demoState.calls ++ [Call.getTile demoIt._tile]⟩)) ∧
    (inRange demoIt._tile →
      operator_deref demoEnv demoState demoIt =
        .ok (.ok (demoState.index.mTiles demoIt._tile.z demoIt._tile.x).tile,
             ⟨demoState.index, demoState.calls ++ [Call.getTile demoIt._tile]⟩))) :=
  ⟨rfl, C7_peek_deref_is_getTile demoEnv demoState demoIt 0 rfl⟩

/-- C8 as stated fails: on a coordinate that has terrain but whose tile file is corrupt, the
force-load dereference returns the format error and the tile is not materialised afterwards. -/
theorem C8_force_deref_counterexample :
    hasTile corruptEnv demoState.index ⟨0, 0⟩ = true ∧
    operator_deref corruptEnv demoState (⟨some 0, ⟨0, 0⟩, tiles_default_pred⟩ : tile_iterator true) =
      .ok (.error .corrupt, ⟨demoIndex, [Call.loadTile ⟨0, 0⟩]⟩) ∧
    tileLoaded demoIndex ⟨0, 0⟩ = false :=
  ⟨by decide, rfl, by decide⟩

/-- C8, amended: in force-load mode (`Load = true`) dereferencing a non-end `tile_iterator` on
an in-range coordinate returns exactly the result of `loadTile` there. Afterwards the tile
there is materialised whenever `hasTile` holds and the tile was materialised before or the
collaborator's load succeeds; a returned tile pointer is the one a following `getTile` returns;
a format error leaves the index as it was; a second dereference returns the same result and
changes nothing more; no slot other than the current one changes, and the current slot keeps
its flags. -/
theorem C8_force_deref_is_loadTile (env : Env) (s : State) (it : tile_iterator true)
    (p : MapIndexPtr) (hidx : it._index = some p) (hr : inRange it._tile) :
    ∃ v m1, loadTile env s.index it._tile = .ok (v, m1) ∧
      operator_deref env s it = .ok (v, ⟨m1, s.calls ++ [Call.loadTile it._tile]⟩) ∧
      (hasTile env s.index it._tile = true →
        (tileLoaded s.index it._tile = true ∨
          ∃ t, env.load s.index.basename s.index._map_id it._tile = .ok t) →
        tileLoaded m1 it._tile = true) ∧
      (∀ t, v = .ok t → getTile m1 it._tile = .ok t) ∧
      (∀ e, v = .error e → m1 = s.index) ∧
      (∀ cs, operator_deref env ⟨m1, cs⟩ it = .ok (v, ⟨m1, cs ++ [Call.loadTile it._tile]⟩)) ∧
      (∀ c, c ≠ it._tile → m1.mTiles c.z c.x = s.index.mTiles c.z c.x) ∧
      (m1.mTiles it._tile.z it._tile.x).flags = (s.index.mTiles it._tile.z it._tile.x).flags := by
  have hr2 : it._tile.x < 64 ∧ it._tile.z < 64 := hr
  have hl := loadTile_ok env s.index it._tile hr
  refine ⟨_, _, hl, by simp only [operator_deref, hidx, if_true, hl], ?_⟩
  rw [derefIndex_force env s.index it._tile hr, derefValue_force env s.index it._tile hr]
  have hframe : ∀ (e : MapTileEntry) (c : tile_index), c ≠ it._tile →
      (setSlot s.index it._tile e).mTiles c.z c.x = s.index.mTiles c.z c.x := by
    intro e c hc
    have : ¬ (c.z = it._tile.z ∧ c.x = it._tile.x) := by
      rintro ⟨h1, h2⟩
      apply hc
      cases c
      cases hit : it._tile
      simp_all
    simp [setSlot, this]
  cases ht : (s.index.mTiles it._tile.z it._tile.x).tile with
  | some t =>
    have he : loadedEntry env s.index.basename s.index._map_id it._tile
        (s.index.mTiles it._tile.z it._tile.x) = s.index.mTiles it._tile.z it._tile.x := by
      simp [loadedEntry, ht]
    rw [he, setSlot_self]
    refine ⟨fun _ _ => by simp [tileLoaded, ht], fun t1 h1 => ?_, fun e h1 => by simp at h1,
      fun cs => ?_, fun _ _ => rfl, rfl⟩
    · simp only [Except.ok.injEq] at h1
      simp [getTile, hr2, ht, h1]
    · simp [operator_deref, hidx, loadTile, hr2, ht]
  | none =>
    cases hh : hasTile env s.index it._tile with
    | false =>
      have he : loadedEntry env s.index.basename s.index._map_id it._tile
          (s.index.mTiles it._tile.z it._tile.x) = s.index.mTiles it._tile.z it._tile.x := by
        simp only [hasTile] at hh
        simp [loadedEntry, ht, hh]
      rw [he, setSlot_self]
      refine ⟨fun h _ => by simp at h, fun t1 h1 => ?_, fun e h1 => by simp at h1,
        fun cs => ?_, fun _ _ => rfl, rfl⟩
      · simp only [Bool.false_eq_true, if_false, Except.ok.injEq] at h1
        simp [getTile, hr2, ht, h1]
      · simp [operator_deref, hidx, loadTile, hr2, ht, hh]
    | true =>
      cases hld : env.load s.index.basename s.index._map_id it._tile with
      | error e0 =>
        have he : loadedEntry env s.index.basename s.index._map_id it._tile
            (s.index.mTiles it._tile.z it._tile.x) = s.index.mTiles it._tile.z it._tile.x := by
          simp only [hasTile] at hh
          simp [loadedEntry, ht, hh, hld]
        rw [he, setSlot_self]
        refine ⟨fun _ h => ?_, fun t1 h1 => by simp at h1, fun _ _ => rfl,
          fun cs => ?_, fun _ _ => rfl, rfl⟩
        · rcases h with h | ⟨t, h⟩
          · simp [tileLoaded, ht] at h
          · simp at h
        · simp [operator_deref, hidx, loadTile, hr2, ht, hh, hld]
      | ok t0 =>
        have he : loadedEntry env s.index.basename s.index._map_id it._tile
            (s.index.mTiles it._tile.z it._tile.x) =
            { (s.index.mTiles it._tile.z it._tile.x) with tile := some t0, onDisc := true } := by
          simp only [hasTile] at hh
          simp [loadedEntry, ht, hh, hld]
        rw [he]
        refine ⟨fun _ _ => by simp [tileLoaded, setSlot], fun t1 h1 => ?_, fun e h1 => by simp at h1,
          fun cs => ?_, fun c hc => hframe _ c hc, by simp [setSlot]⟩
        · simp only [if_true, Except.ok.injEq] at h1
          simp [getTile, hr2, setSlot, h1]
        · simp [operator_deref, hidx, loadTile, hr2, setSlot]

/-- Witness of the amended C8: a force-load iterator of `demoIndex` on `(0, 0)`. -/
theorem C8_force_deref_is_loadTile_witness :
    inRange ⟨0, 0⟩ ∧
    ∃ v m1, loadTile demoEnv demoState.index ⟨0, 0⟩ = .ok (v, m1) ∧
      operator_deref demoEnv demoState (⟨some 0, ⟨0, 0⟩, tiles_default_pred⟩ : tile_iterator true) =
        .ok (v, ⟨m1, demoState.calls ++ [Call.loadTile ⟨0, 0⟩]⟩) ∧
      (hasTile demoEnv demoState.index ⟨0, 0⟩ = true →
        (tileLoaded demoState.index ⟨0, 0⟩ = true ∨
          ∃ t, demoEnv.load demoState.index.basename demoState.index._map_id ⟨0, 0⟩ = .ok t) →
        tileLoaded m1 ⟨0, 0⟩ = true) ∧
      (∀ t, v = .ok t → getTile m1 ⟨0, 0⟩ = .ok t) ∧
      (∀ e, v = .error e → m1 = demoState.index) ∧
      (∀ cs, operator_deref demoEnv ⟨m1, cs⟩
          (⟨some 0, ⟨0, 0⟩, tiles_default_pred⟩ : tile_iterator true) =
        .ok (v, ⟨m1, cs ++ [Call.loadTile ⟨0, 0⟩]⟩)) ∧
      (∀ c : tile_index, c ≠ ⟨0, 0⟩ → m1.mTiles c.z c.x = demoState.index.mTiles c.z c.x) ∧
      (m1.mTiles 0 0).flags = (demoState.index.mTiles 0 0).flags :=
  ⟨by decide, C8_force_deref_is_loadTile demoEnv demoState
    (⟨some 0, ⟨0, 0⟩, tiles_default_pred⟩ : tile_iterator true) 0 rfl (by decide)⟩

/-- C9: in both modes the constructor and `operator++` (non-null index, in-range coordinate)
return with the `MapIndex` exactly as it was; the calls they make are `getTile` calls and
predicate calls only, never `loadTile`; every predicate call passes an in-range coordinate and
the result of `getTile` at that coordinate. A peek dereference leaves the index as it was too,
so only `operator*` in force-load mode can materialise a tile. -/
theorem C9_ctor_and_advance_never_load (Load : Bool) (env : Env) (s : State)
    (it : tile_iterator Load) (p : MapIndexPtr) (hidx : it._index = some p)
    (hr : inRange it._tile) :
    (∃ it0 cs, tile_iterator.ctor Load s (some p) it._tile it._pred =
        .ok (it0, ⟨s.index, s.calls ++ cs⟩) ∧
      (∀ c1, Call.loadTile c1 ∉ cs) ∧
      (∀ c1 t, Call.pred c1 t ∈ cs → inRange c1 ∧ getTile s.index c1 = .ok t)) ∧
    (∃ it1 cs, operator_pp s it = .ok (it1, ⟨s.index, s.calls ++ cs⟩) ∧
      (∀ c1, Call.loadTile c1 ∉ cs) ∧
      (∀ c1 t, Call.pred c1 t ∈ cs → inRange c1 ∧ getTile s.index c1 = .ok t)) ∧
    (∀ v s1, operator_deref env s (⟨it._index, it._tile, it._pred⟩ : tile_iterator false) =
        .ok (v, s1) → s1.index = s.index) := by
  have hlt := rank_lt _ hr
  refine ⟨⟨_, _, ctor_scan Load s p it._tile it._pred hr, ?_⟩,
    ⟨_, _, operator_pp_scan s it p hidx hr, ?_⟩, fun v s1 h => ?_⟩
  · have := scanCalls_sound s.index (accepts it._pred s.index) (4096 - rank it._tile)
      (rank it._tile) (by omega)
    exact ⟨this.1, this.2.2⟩
  · have := scanCalls_sound s.index (accepts it._pred s.index) (4095 - rank it._tile)
      (rank it._tile + 1) (by omega)
    exact ⟨this.1, this.2.2⟩
  · have hr2 : it._tile.x < 64 ∧ it._tile.z < 64 := hr
    simp only [operator_deref, hidx, getTile, hr2, and_self, if_true, Bool.false_eq_true,
      if_false, Except.ok.injEq, Prod.mk.injEq] at h
    rw [← h.2]

/-- Witness of C9 on `demoIt`. -/
theorem C9_ctor_and_advance_never_load_witness :
    demoIt._index = some 0 ∧ inRange demoIt._tile ∧
    ((∃ it0 cs, tile_iterator.ctor false demoState (some 0) demoIt._tile demoIt._pred =
        .ok (it0, ⟨demoState.index, demoState.calls ++ cs⟩) ∧
      (∀ c1, Call.loadTile c1 ∉ cs) ∧
      (∀ c1 t, Call.pred c1 t ∈ cs → inRange c1 ∧ getTile demoState.index c1 = .ok t)) ∧
    (∃ it1 cs, operator_pp demoState demoIt = .ok (it1, ⟨demoState.index, demoState.calls ++ cs⟩) ∧
      (∀ c1, Call.loadTile c1 ∉ cs) ∧
      (∀ c1 t, Call.pred c1 t ∈ cs → inRange c1 ∧ getTile demoState.index c1 = .ok t)) ∧
    (∀ v s1, operator_deref demoEnv demoState
        (⟨demoIt._index, demoIt._tile, demoIt._pred⟩ : tile_iterator false) =
        .ok (v, s1) → s1.index = demoState.index)) :=
  ⟨rfl, by decide, C9_ctor_and_advance_never_load false demoEnv demoState demoIt 0 rfl (by decide)⟩

/-- C10 as stated fails: with every tile file corrupt, a complete dereferencing traversal of
`tiles_in_range` leaves `(0, 0)` unmaterialised although it has terrain, is within the radius
and was not loaded before. -/
theorem C10_tiles_in_range_counterexample :
    inRange ⟨0, 0⟩ ∧ hasTile corruptEnv demoState.index ⟨0, 0⟩ = true ∧
    demoFloat.le (demoFloat.getShortestDist 0 0 (demoFloat.mul (demoFloat.ofNat 0) demoFloat.TILESIZE)
      (demoFloat.mul (demoFloat.ofNat 0) demoFloat.TILESIZE) demoFloat.TILESIZE) 0 = true ∧
    tileLoaded demoState.index ⟨0, 0⟩ = false ∧
    ∃ rng s1 vs s2, tiles_in_range corruptEnv demoFloat demoState 0 ⟨0, 0, 0⟩ 0 = .ok (rng, s1) ∧
      for_each corruptEnv s1 rng = .ok (vs, s2) ∧ tileLoaded s2.index ⟨0, 0⟩ = false := by
  refine ⟨by decide, by decide, by decide, by decide, ?_⟩
  obtain ⟨rng, s1, vs, s2, h1, _, h2, _, h3⟩ :=
    tiles_in_range_run corruptEnv demoFloat demoState 0 ⟨0, 0, 0⟩ 0
  refine ⟨rng, s1, vs, s2, h1, h2, ?_⟩
  have h4 := h3 ⟨0, 0⟩
  have h5 : loadedEntry corruptEnv demoState.index.basename demoState.index._map_id ⟨0, 0⟩
      (demoState.index.mTiles 0 0) = demoState.index.mTiles 0 0 := by decide
  simp only [h5, ite_self] at h4
  simp only [tileLoaded, h4]
  decide

/-- C10, amended: for every world position and radius, a complete traversal of
`tiles_in_range (pos, radius)` that dereferences each visited iterator materialises every
coordinate `c` with `hasTile (c)` and `getShortestDist (pos.x, pos.z, c.x * TILESIZE,
c.z * TILESIZE, TILESIZE) <= radius` that was not loaded before and whose load by the tile
collaborator succeeds (the slot then holds the loaded tile and is on disc), and leaves every
other slot exactly as it was; it visits the accepted coordinates in raster order. -/
theorem C10_tiles_in_range_materialises {F : Type} (env : Env) (fe : FloatEnv F) (s : State)
    (this : MapIndexPtr) (pos : vector_3d F) (radius : F) :
    ∃ rng s1 vs s2, tiles_in_range env fe s this pos radius = .ok (rng, s1) ∧
      s1.index = s.index ∧ for_each env s1 rng = .ok (vs, s2) ∧
      (∀ c, c ∈ vs.map Visit.coord ↔
        inRange c ∧ hasTile env s.index c = true ∧
        fe.le (fe.getShortestDist pos.x pos.z (fe.mul (fe.ofNat c.x) fe.TILESIZE)
          (fe.mul (fe.ofNat c.z) fe.TILESIZE) fe.TILESIZE) radius = true) ∧
      (∀ c t, inRange c → hasTile env s.index c = true →
        fe.le (fe.getShortestDist pos.x pos.z (fe.mul (fe.ofNat c.x) fe.TILESIZE)
          (fe.mul (fe.ofNat c.z) fe.TILESIZE) fe.TILESIZE) radius = true →
        tileLoaded s.index c = false →
        env.load s.index.basename s.index._map_id c = .ok t →
        s2.index.mTiles c.z c.x =
          { (s.index.mTiles c.z c.x) with tile := some t, onDisc := true } ∧
        tileLoaded s2.index c = true) ∧
      (∀ c : tile_index,
        ¬ (inRange c ∧ hasTile env s.index c = true ∧
           fe.le (fe.getShortestDist pos.x pos.z (fe.mul (fe.ofNat c.x) fe.TILESIZE)
             (fe.mul (fe.ofNat c.z) fe.TILESIZE) fe.TILESIZE) radius = true ∧
           tileLoaded s.index c = false ∧
           ∃ t, env.load s.index.basename s.index._map_id c = .ok t) →
        s2.index.mTiles c.z c.x = s.index.mTiles c.z c.x) := by
  obtain ⟨rng, s1, vs, s2, h1, h2, h3, h4, h5⟩ := tiles_in_range_run env fe s this pos radius
  have hacc : ∀ c : tile_index, accepts (in_range_pred env fe pos radius) s.index c = true ↔
      (hasTile env s.index c = true ∧
        fe.le (fe.getShortestDist pos.x pos.z (fe.mul (fe.ofNat c.x) fe.TILESIZE)
          (fe.mul (fe.ofNat c.z) fe.TILESIZE) fe.TILESIZE) radius = true) := by
    intro c
    simp [accepts, in_range_pred]
  refine ⟨rng, s1, vs, s2, h1, h2, h3, fun c => ?_, fun c t hc hh hd hl hld => ?_, fun c hn => ?_⟩
  · rw [h4, accepted_mem, hacc]
  · have hslot : s2.index.mTiles c.z c.x =
        { (s.index.mTiles c.z c.x) with tile := some t, onDisc := true } := by
      rw [h5 c, if_pos ⟨hc, (hacc c).mpr ⟨hh, hd⟩⟩]
      have ht : (s.index.mTiles c.z c.x).tile = none := by
        simpa [tileLoaded] using hl
      simp only [hasTile] at hh
      simp [loadedEntry, ht, hh, hld]
    exact ⟨hslot, by simp [tileLoaded, hslot]⟩
  · rw [h5 c]
    by_cases hca : inRange c ∧ accepts (in_range_pred env fe pos radius) s.index c = true
    · rw [if_pos hca]
      obtain ⟨hc, ha⟩ := hca
      obtain ⟨hh, hd⟩ := (hacc c).mp ha
      cases ht : (s.index.mTiles c.z c.x).tile with
      | some t => simp [loadedEntry, ht]
      | none =>
        cases hld : env.load s.index.basename s.index._map_id c with
        | ok t =>
          exact absurd ⟨hc, hh, hd, by simp [tileLoaded, ht], t, hld⟩ hn
        | error e =>
          simp only [hasTile] at hh
          simp [loadedEntry, ht, hh, hld]
    · rw [if_neg hca]

/-- Witness of the amended C10: on `demoIndex`, with every load succeeding, the traversal
around the origin with radius 0 materialises `(0, 0)`. -/
theorem C10_tiles_in_range_materialises_witness :
    ∃ rng s1 vs s2, tiles_in_range demoEnv demoFloat demoState 0 ⟨0, 0, 0⟩ 0 = .ok (rng, s1) ∧
      for_each demoEnv s1 rng = .ok (vs, s2) ∧ tileLoaded s2.index ⟨0, 0⟩ = true := by
  obtain ⟨rng, s1, vs, s2, h1, _, h3, _, h5, _⟩ :=
    C10_tiles_in_range_materialises demoEnv demoFloat demoState 0 ⟨0, 0, 0⟩ 0
  exact ⟨rng, s1, vs, s2, h1, h3,
    (h5 ⟨0, 0⟩ ⟨0⟩ (by decide) (by decide) (by decide) (by decide) rfl).2⟩

/-- C11: the predicate of `tiles_in_range` accepts a coordinate iff `hasTile` is true there and
the distance to the tile's footprint is `<=` the radius, whatever tile pointer it is passed and
whatever the slot's materialisation; hence, for every position and radius, a complete
dereferencing traversal never visits a coordinate for which `hasTile` is false, never calls
`loadTile` on it and leaves its slot as it was. -/
theorem C11_in_range_pred_needs_hasTile {F : Type} (env : Env) (fe : FloatEnv F) (s : State)
    (this : MapIndexPtr) (pos : vector_3d F) (radius : F) :
    (∀ (m : MapIndex) (c : tile_index) (t : Option MapTile),
      in_range_pred env fe pos radius m c t = true ↔
        hasTile env m c = true ∧
        fe.le (fe.getShortestDist pos.x pos.z (fe.mul (fe.ofNat c.x) fe.TILESIZE)
          (fe.mul (fe.ofNat c.z) fe.TILESIZE) fe.TILESIZE) radius = true) ∧
    (∀ (m : MapIndex) (c : tile_index) (t1 t2 tl : Option MapTile) (d : Bool),
      in_range_pred env fe pos radius
          (setSlot m c { (m.mTiles c.z c.x) with tile := tl, onDisc := d }) c t1 =
        in_range_pred env fe pos radius m c t2) ∧
    ∃ rng s1 vs s2, tiles_in_range env fe s this pos radius = .ok (rng, s1) ∧
      for_each env s1 rng = .ok (vs, s2) ∧
      ∀ c : tile_index, hasTile env s.index c = false →
        c ∉ vs.map Visit.coord ∧
        (Call.loadTile c ∈ s2.calls → Call.loadTile c ∈ s.calls) ∧
        s2.index.mTiles c.z c.x = s.index.mTiles c.z c.x := by
  refine ⟨fun m c t => by simp [in_range_pred], fun m c t1 t2 tl d => ?_, ?_⟩
  · simp [in_range_pred, hasTile, setSlot]
  · obtain ⟨rng, s1, vs, s2, h1, _, h3, h4, h5⟩ := tiles_in_range_run env fe s this pos radius
    refine ⟨rng, s1, vs, s2, h1, h3, fun c hc => ?_⟩
    have hrej : accepts (in_range_pred env fe pos radius) s.index c = false := by
      simp [accepts, in_range_pred, hc]
    have hnot : c ∉ vs.map Visit.coord := by
      rw [h4, accepted_mem, hrej]
      simp
    refine ⟨hnot, fun hl => ?_, ?_⟩
    · have ht : tiles true s this (in_range_pred env fe pos radius) = .ok (rng, s1) := h1
      simp only [tiles] at ht
      cases hct : tile_iterator.ctor true s (some this) ⟨0, 0⟩ (in_range_pred env fe pos radius) with
      | error e => simp [hct] at ht
      | ok r =>
        obtain ⟨b, s0⟩ := r
        simp only [hct, Except.ok.injEq, Prod.mk.injEq] at ht
        obtain ⟨hrng, hs0⟩ := ht
        subst hs0
        rcases traverse_calls env 4097 s0 s2 rng.1 rng.2 vs h3 c hl with h6 | h6
        · exact ctor_calls true s s0 _ _ _ b hct c h6
        · exact absurd h6 hnot
    · rw [h5 c, hrej]
      simp

/-- Witness of C11 on the boundary: with the reference point 5 units left of tile `(0, 0)`, the
predicate accepts `(0, 0)` for radius 5 (distance equal to the radius) and rejects it for
radius 4. -/
theorem C11_in_range_pred_needs_hasTile_witness :
    in_range_pred demoEnv demoFloat ⟨-5, 0, 0⟩ 5 demoIndex ⟨0, 0⟩ none = true ∧
    in_range_pred demoEnv demoFloat ⟨-5, 0, 0⟩ 4 demoIndex ⟨0, 0⟩ none = false ∧
    (in_range_pred demoEnv demoFloat ⟨-5, 0, 0⟩ 5 demoIndex ⟨0, 0⟩ none = true ↔
      hasTile demoEnv demoIndex ⟨0, 0⟩ = true ∧
      demoFloat.le (demoFloat.getShortestDist (-5) 0
        (demoFloat.mul (demoFloat.ofNat 0) demoFloat.TILESIZE)
        (demoFloat.mul (demoFloat.ofNat 0) demoFloat.TILESIZE) demoFloat.TILESIZE) 5 = true) :=
  ⟨by decide, by decide,
   (C11_in_range_pred_needs_hasTile demoEnv demoFloat demoState 0 ⟨-5, 0, 0⟩ 5).1
     demoIndex ⟨0, 0⟩ none⟩

/-- C12: every `tile_iterator` that the constructor or `operator++` returns in the end state
has index null and coordinate `(0, 0)` and compares equal to the default-constructed end
iterator, and every non-end iterator they return compares unequal to it; so, from a non-null
index and an in-range coordinate, `it != end` is false after `operator++` (after construction)
exactly when no later coordinate (no coordinate from the start on) is accepted. -/
theorem C12_end_state_equals_default_end (Load : Bool) :
    (∀ (s s1 : State) (it it1 : tile_iterator Load), operator_pp s it = .ok (it1, s1) →
      (it1._index = none →
        it1._tile = ⟨0, 0⟩ ∧ operator_eq it1 (tile_iterator.default_ctor Load) = true) ∧
      (it1._index ≠ none →
        operator_eq it1 (tile_iterator.default_ctor Load) = false ∧
        operator_ne it1 (tile_iterator.default_ctor Load) = true)) ∧
    (∀ (s s1 : State) (idx : Option MapIndexPtr) (c : tile_index) (pred : Pred)
        (it1 : tile_iterator Load), tile_iterator.ctor Load s idx c pred = .ok (it1, s1) →
      (it1._index = none →
        it1._tile = ⟨0, 0⟩ ∧ operator_eq it1 (tile_iterator.default_ctor Load) = true) ∧
      (it1._index ≠ none →
        operator_eq it1 (tile_iterator.default_ctor Load) = false ∧
        operator_ne it1 (tile_iterator.default_ctor Load) = true)) ∧
    (∀ (s : State) (it : tile_iterator Load) (p : MapIndexPtr), it._index = some p →
      inRange it._tile →
      ∃ it1 s1, operator_pp s it = .ok (it1, s1) ∧
        (operator_ne it1 (tile_iterator.default_ctor Load) = false ↔
          ∀ c, inRange c → rank it._tile < rank c → accepts it._pred s.index c = false)) ∧
    (∀ (s : State) (p : MapIndexPtr) (c : tile_index) (pred : Pred), inRange c →
      ∃ it1 s1, tile_iterator.ctor Load s (some p) c pred = .ok (it1, s1) ∧
        (operator_ne it1 (tile_iterator.default_ctor Load) = false ↔
          ∀ c1, inRange c1 → rank c ≤ rank c1 → accepts pred s.index c1 = false)) := by
  refine ⟨fun s s1 it it1 h => end_state_compare it1 (operator_pp_loop_end 4096 s s1 it it1 h),
    fun s s1 idx c pred it1 h => end_state_compare it1 (ctor_end Load s s1 idx c pred it1 h),
    fun s it p hidx hr => ?_, fun s p c pred hr => ?_⟩
  · have hlt := rank_lt _ hr
    refine ⟨_, _, operator_pp_scan s it p hidx hr, ?_⟩
    exact arrive_ne_end_iff it p hidx _ _ _ (by omega)
  · have hlt := rank_lt _ hr
    refine ⟨_, _, ctor_scan Load s p c pred hr, ?_⟩
    exact arrive_ne_end_iff (⟨some p, c, pred⟩ : tile_iterator Load) p rfl _ _ _ (by omega)

/-- Witness of C12: advancing a peek iterator of `demoIndex` from `(63, 63)` gives index null
and coordinate `(0, 0)`, equal to the default-constructed end iterator. -/
theorem C12_end_state_equals_default_end_witness :
    operator_pp demoState (⟨some 0, ⟨63, 63⟩, tiles_default_pred⟩ : tile_iterator false) =
      .ok (⟨none, ⟨0, 0⟩, tiles_default_pred⟩, demoState) ∧
    ((⟨none, ⟨0, 0⟩, tiles_default_pred⟩ : tile_iterator false)._index = none →
      (⟨none, ⟨0, 0⟩, tiles_default_pred⟩ : tile_iterator false)._tile = ⟨0, 0⟩ ∧
      operator_eq (⟨none, ⟨0, 0⟩, tiles_default_pred⟩ : tile_iterator false)
        (tile_iterator.default_ctor false) = true) :=
  ⟨rfl, ((C12_end_state_equals_default_end false).1 demoState demoState
    (⟨some 0, ⟨63, 63⟩, tiles_default_pred⟩ : tile_iterator false)
    ⟨none, ⟨0, 0⟩, tiles_default_pred⟩ rfl).1⟩

/-- C13: for a `tile_iterator` built with a non-null index on an in-range coordinate, the
constructor followed by any number of `operator++` calls made while the iterator is not at end
returns without fault (no `getTile` outside the grid, no call through a null index); every
coordinate passed to `getTile` and to the predicate is in range; the iterator stays on an
in-range coordinate or is the end state on `(0, 0)`. The `operator++` that exhausts the grid
evaluates the predicate on the remaining grid coordinates only, never after the reset. -/
theorem C13_coordinates_stay_in_range (Load : Bool) (s : State) (p : MapIndexPtr)
    (c : tile_index) (pred : Pred) (hr : inRange c) (n : Nat) :
    (∃ it0 s0 it1 cs, tile_iterator.ctor Load s (some p) c pred = .ok (it0, s0) ∧
      advance_while n s0 it0 = .ok (it1, ⟨s.index, s.calls ++ cs⟩) ∧
      (∀ c1, Call.getTile c1 ∈ cs → inRange c1) ∧
      (∀ c1 t, Call.pred c1 t ∈ cs → inRange c1) ∧
      ((it1._index = none ∧ it1._tile = ⟨0, 0⟩) ∨ (it1._index = some p ∧ inRange it1._tile))) ∧
    (∃ it1 cs, operator_pp s (⟨some p, c, pred⟩ : tile_iterator Load) =
        .ok (it1, ⟨s.index, s.calls ++ cs⟩) ∧
      (it1._index = none →
        predCoords cs = (List.range' (rank c + 1) (4095 - rank c)).map ofRank) ∧
      (c = ⟨63, 63⟩ → it1._index = none ∧ cs = [])) := by
  have hlt := rank_lt _ hr
  constructor
  · have hsound := scanCalls_sound s.index (accepts pred s.index) (4096 - rank c) (rank c)
      (by omega)
    have hgood : ((arrive (⟨some p, c, pred⟩ : tile_iterator Load)
          (firstFrom (accepts pred s.index) (4096 - rank c) (rank c)))._index = none ∧
        (arrive (⟨some p, c, pred⟩ : tile_iterator Load)
          (firstFrom (accepts pred s.index) (4096 - rank c) (rank c)))._tile = ⟨0, 0⟩) ∨
        ((arrive (⟨some p, c, pred⟩ : tile_iterator Load)
          (firstFrom (accepts pred s.index) (4096 - rank c) (rank c)))._index = some p ∧
        inRange (arrive (⟨some p, c, pred⟩ : tile_iterator Load)
          (firstFrom (accepts pred s.index) (4096 - rank c) (rank c)))._tile) := by
      rcases firstFrom_cases (accepts pred s.index) (4096 - rank c) (rank c) with
        ⟨hn, _⟩ | ⟨k, hk, _, h2, _, _⟩
      · rw [hn]; exact Or.inl ⟨rfl, rfl⟩
      · rw [hk]; exact Or.inr ⟨rfl, inRange_ofRank k (by omega)⟩
    obtain ⟨it1, cs1, h1, h2, h3, h4⟩ := advance_while_safe p n
      ⟨s.index, s.calls ++ scanCalls s.index (accepts pred s.index) (4096 - rank c) (rank c)⟩
      _ hgood
    refine ⟨_, _, it1, scanCalls s.index (accepts pred s.index) (4096 - rank c) (rank c) ++ cs1,
      ctor_scan Load s p c pred hr, ?_, fun c1 hc => ?_, fun c1 t hc => ?_, h4⟩
    · simp only [h1, List.append_assoc]
    · rcases List.mem_append.mp hc with h5 | h5
      · exact hsound.2.1 c1 h5
      · exact h2 c1 h5
    · rcases List.mem_append.mp hc with h5 | h5
      · exact (hsound.2.2 c1 t h5).1
      · exact (h3 c1 t h5).1
  · refine ⟨_, _, operator_pp_scan s (⟨some p, c, pred⟩ : tile_iterator Load) p rfl hr, ?_, ?_⟩
    · intro hnone
      obtain ⟨j, _, hp, hn, _⟩ := predCoords_scanCalls s.index (accepts pred s.index)
        (4095 - rank c) (rank c + 1)
      rcases firstFrom_cases (accepts pred s.index) (4095 - rank c) (rank c + 1) with
        ⟨hf, _⟩ | ⟨k, hk, _, _, _, _⟩
      · rw [hp, hn hf]
      · rw [hk] at hnone
        simp [arrive] at hnone
    · intro hc
      subst hc
      have h0 : 4095 - rank ⟨63, 63⟩ = 0 := by decide
      rw [h0]
      exact ⟨rfl, rfl⟩

/-- Witness of C13: construction on `(3, 5)` of `demoIndex` followed by two guarded advances. -/
theorem C13_coordinates_stay_in_range_witness :
    inRange ⟨3, 5⟩ ∧
    ((∃ it0 s0 it1 cs, tile_iterator.ctor false demoState (some 0) ⟨3, 5⟩ tiles_default_pred =
        .ok (it0, s0) ∧
      advance_while 2 s0 it0 = .ok (it1, ⟨demoState.index, demoState.calls ++ cs⟩) ∧
      (∀ c1, Call.getTile c1 ∈ cs → inRange c1) ∧
      (∀ c1 t, Call.pred c1 t ∈ cs → inRange c1) ∧
      ((it1._index = none ∧ it1._tile = ⟨0, 0⟩) ∨ (it1._index = some 0 ∧ inRange it1._tile))) ∧
    (∃ it1 cs, operator_pp demoState (⟨some 0, ⟨3, 5⟩, tiles_default_pred⟩ : tile_iterator false) =
        .ok (it1, ⟨demoState.index, demoState.calls ++ cs⟩) ∧
      (it1._index = none →
        predCoords cs = (List.range' (rank ⟨3, 5⟩ + 1) (4095 - rank ⟨3, 5⟩)).map ofRank) ∧
      ((⟨3, 5⟩ : tile_index) = ⟨63, 63⟩ → it1._index = none ∧ cs = []))) :=
  ⟨by decide,
   C13_coordinates_stay_in_range false demoState 0 ⟨3, 5⟩ tiles_default_pred (by decide) 2⟩

/-- C14: `operator++` on a non-end `tile_iterator` on an in-range coordinate `(x, z)`
terminates for every predicate: with any fuel above `4095 - (z*64 + x)` the loop returns the
same result; it evaluates the predicate at most `4095 - (z*64 + x)` times, on in-range
coordinates of consecutive, strictly increasing raster ranks above the current one, until a
coordinate is accepted (the iterator then stands as many ranks further as predicate calls were
made) or the end state is set; a predicate that rejects every coordinate is evaluated exactly
`4095 - (z*64 + x)` times and gives the end state. -/
theorem C14_operator_pp_terminates {Load : Bool} (s : State) (it : tile_iterator Load)
    (p : MapIndexPtr) (hidx : it._index = some p) (hr : inRange it._tile) :
    ∃ it1 cs, operator_pp s it = .ok (it1, ⟨s.index, s.calls ++ cs⟩) ∧
      (∀ fuel, 4095 - (it._tile.z * 64 + it._tile.x) < fuel →
        operator_pp_loop fuel s it = .ok (it1, ⟨s.index, s.calls ++ cs⟩)) ∧
      (predCoords cs).length ≤ 4095 - (it._tile.z * 64 + it._tile.x) ∧
      (∃ j, predCoords cs = (List.range' (rank it._tile + 1) j).map ofRank) ∧
      (predCoords cs).Pairwise (fun a b => rank a < rank b) ∧
      (∀ c ∈ predCoords cs, inRange c ∧ rank it._tile < rank c) ∧
      (it1._index ≠ none → rank it1._tile = rank it._tile + (predCoords cs).length) ∧
      ((∀ c, inRange c → accepts it._pred s.index c = false) →
        it1._index = none ∧
        (predCoords cs).length = 4095 - (it._tile.z * 64 + it._tile.x)) := by
  have hlt := rank_lt _ hr
  have hrk : it._tile.z * 64 + it._tile.x = rank it._tile := rfl
  rw [hrk]
  obtain ⟨j, hj, hp, hn, hs⟩ := predCoords_scanCalls s.index (accepts it._pred s.index)
    (4095 - rank it._tile) (rank it._tile + 1)
  refine ⟨_, _, operator_pp_scan s it p hidx hr, fun fuel hf => ?_, ?_, ⟨j, hp⟩, ?_, ?_, ?_, ?_⟩
  · exact operator_pp_loop_scan (4095 - rank it._tile) fuel (rank it._tile) s it p hidx
      (ofRank_rank _ hr).symm (by omega) hf
  · rw [hp]
    simpa using hj
  · rw [hp, List.pairwise_map]
    simp only [rank_ofRank]
    exact List.pairwise_lt_range' _ _
  · intro c hc
    rw [hp] at hc
    simp only [List.mem_map, List.mem_range'_1] at hc
    obtain ⟨k, ⟨h1, h2⟩, rfl⟩ := hc
    exact ⟨inRange_ofRank k (by omega), by rw [rank_ofRank]; omega⟩
  · intro hne
    rcases firstFrom_cases (accepts it._pred s.index) (4095 - rank it._tile)
      (rank it._tile + 1) with ⟨hf, _⟩ | ⟨k, hk, _, _, _, _⟩
    · rw [hf] at hne
      exact absurd rfl hne
    · have := hs k hk
      rw [hk, hp]
      simp only [arrive, rank_ofRank, List.length_map, List.length_range']
      omega
  · intro hall
    rcases firstFrom_cases (accepts it._pred s.index) (4095 - rank it._tile)
      (rank it._tile + 1) with ⟨hf, _⟩ | ⟨k, hk, _, h2, h3, _⟩
    · rw [hf, hp, hn hf]
      exact ⟨rfl, by simp⟩
    · rw [hall (ofRank k) (inRange_ofRank k (by omega))] at h3
      exact absurd h3 (by simp)

/-- Witness of C14 on `demoIt`, a non-end iterator on `(3, 5)`. -/
theorem C14_operator_pp_terminates_witness :
    demoIt._index = some 0 ∧ inRange demoIt._tile ∧
    ∃ it1 cs, operator_pp demoState demoIt = .ok (it1, ⟨demoState.index, demoState.calls ++ cs⟩) ∧
      (∀ fuel, 4095 - (demoIt._tile.z * 64 + demoIt._tile.x) < fuel →
        operator_pp_loop fuel demoState demoIt =
          .ok (it1, ⟨demoState.index, demoState.calls ++ cs⟩)) ∧
      (predCoords cs).length ≤ 4095 - (demoIt._tile.z * 64 + demoIt._tile.x) ∧
      (∃ j, predCoords cs = (List.range' (rank demoIt._tile + 1) j).map ofRank) ∧
      (predCoords cs).Pairwise (fun a b => rank a < rank b) ∧
      (∀ c ∈ predCoords cs, inRange c ∧ rank demoIt._tile < rank c) ∧
      (it1._index ≠ none → rank it1._tile = rank demoIt._tile + (predCoords cs).length) ∧
      ((∀ c, inRange c → accepts demoIt._pred demoState.index c = false) →
        it1._index = none ∧
        (predCoords cs).length = 4095 - (demoIt._tile.z * 64 + demoIt._tile.x)) :=
  ⟨rfl, by decide, C14_operator_pp_terminates demoState demoIt 0 rfl (by decide)⟩

/-- C15: postfix `it++` on a non-end `tile_iterator` (on an in-range coordinate) leaves the
iterator it is called on as it was and returns a copy advanced by one step: the returned
iterator is what prefix `++` produces from the iterator, and it is not equal to the iterator's
value before the advance. -/
theorem C15_postfix_returns_advanced_copy {Load : Bool} (s : State) (it : tile_iterator Load)
    (p : MapIndexPtr) (hidx : it._index = some p) (hr : inRange it._tile) :
    ∃ it1 s1, operator_pp s it = .ok (it1, s1) ∧
      operator_pp_int s it = .ok ((it, it1), s1) ∧
      operator_eq it1 it = false ∧
      (it1._index = none ∨ rank it._tile < rank it1._tile) := by
  have hlt := rank_lt _ hr
  have hpp := operator_pp_scan s it p hidx hr
  refine ⟨_, _, hpp, by simp only [operator_pp_int, hpp], ?_⟩
  rcases firstFrom_cases (accepts it._pred s.index) (4095 - rank it._tile)
    (rank it._tile + 1) with ⟨hf, _⟩ | ⟨k, hk, h1, _, _, _⟩
  · rw [hf]
    exact ⟨by simp [arrive, operator_eq, hidx], Or.inl rfl⟩
  · rw [hk]
    have hne : ofRank k ≠ it._tile := by
      intro h
      have := congrArg rank h
      rw [rank_ofRank] at this
      omega
    exact ⟨by simp [arrive, operator_eq, hne], Or.inr (by simp only [arrive, rank_ofRank]; omega)⟩

/-- Witness of C15 on `demoIt`. -/
theorem C15_postfix_returns_advanced_copy_witness :
    demoIt._index = some 0 ∧ inRange demoIt._tile ∧
    ∃ it1 s1, operator_pp demoState demoIt = .ok (it1, s1) ∧
      operator_pp_int demoState demoIt = .ok ((demoIt, it1), s1) ∧
      operator_eq it1 demoIt = false ∧
      (it1._index = none ∨ rank demoIt._tile < rank it1._tile) :=
  ⟨rfl, by decide, C15_postfix_returns_advanced_copy demoState demoIt 0 rfl (by decide)⟩

end Noggit
